import Mathlib

/-!
# Verification of the asp-eks profile/kubeconfig synchronizer

Shallow embedding of the core of `cmd/generate_profiles.go`, `cmd/cluster.go`
and the switch workflow (`useCmd`) of the asp-eks repository, together with
proofs and refutations of the specified properties.

Strings are modelled by Lean `String` (a wrapper around `List Char`); the Go
`strings` functions used by the source are embedded on the ASCII fragment that
the tool manipulates (profile names, AWS section keys, URLs).  Go maps are
modelled as association lists in insertion order, matching the semantics the
source relies on (`NewKey`/`NewSection` upsert, `DeleteSection` filter).
-/

namespace AspEks

/-! ## Character / string utilities (embedding of the `strings` package calls) -/

/-- ASCII lower-casing of one character, the fragment of `strings.ToLower`
exercised by the source (account names, role names). -/
def toLowerChar (c : Char) : Char :=
  match c with
  | 'A' => 'a' | 'B' => 'b' | 'C' => 'c' | 'D' => 'd' | 'E' => 'e' | 'F' => 'f'
  | 'G' => 'g' | 'H' => 'h' | 'I' => 'i' | 'J' => 'j' | 'K' => 'k' | 'L' => 'l'
  | 'M' => 'm' | 'N' => 'n' | 'O' => 'o' | 'P' => 'p' | 'Q' => 'q' | 'R' => 'r'
  | 'S' => 's' | 'T' => 't' | 'U' => 'u' | 'V' => 'v' | 'W' => 'w' | 'X' => 'x'
  | 'Y' => 'y' | 'Z' => 'z'
  | c => c

/-- `strings.ToLower` (ASCII fragment). -/
def strToLower (s : String) : String := ⟨s.data.map toLowerChar⟩

/-- `strings.ReplaceAll s (string a) (string b)` for one-character pattern and
replacement, as used at generate_profiles.go:511-512. -/
def replaceAllChar (s : String) (a b : Char) : String :=
  ⟨s.data.map (fun c => if c = a then b else c)⟩

/-- `strings.HasPrefix s pre`. -/
def strStartsWith (s pre : String) : Bool := pre.data.isPrefixOf s.data

/-- `strings.TrimPrefix s pre`. -/
def strStripStart (pre s : String) : String :=
  if strStartsWith s pre then ⟨s.data.drop pre.data.length⟩ else s

/-- `strings.Contains s sub` on char lists. -/
def containsSubL (hay pat : List Char) : Bool :=
  match hay with
  | [] => pat.isPrefixOf ([] : List Char)
  | _ :: t => pat.isPrefixOf hay || containsSubL t pat

/-- `strings.Contains s sub`. -/
def containsSubstr (s sub : String) : Bool := containsSubL s.data sub.data

/-- Go string comparison `a < b`: bytewise lexicographic, which on UTF-8
agrees with the codepoint-wise comparison embedded here. -/
def strLtB : List Char → List Char → Bool
  | [], [] => false
  | [], _ :: _ => true
  | _ :: _, [] => false
  | x :: xs, y :: ys => if x = y then strLtB xs ys else decide (x < y)

/-- Go `a < b` on strings. -/
def strLt (a b : String) : Prop := strLtB a.data b.data = true

/-- `a ≤ b` in the sense Go's `sort.Slice` induces from the comparator:
`¬(b < a)`. -/
def strLe (a b : String) : Prop := strLtB b.data a.data = false

/-! ## Data model: AccountRole (generate_profiles.go:54-59) -/

structure AccountRole where
  accountID : String
  accountName : String
  roleName : String
  emailAddress : String
  deriving DecidableEq, Repr

/-! ## Profile Name Synthesizer (generate_profiles.go:494-552) -/

/-- The account identifier cleanup of generate_profiles.go:504-513: account
name if non-empty else account id, spaces and dots replaced by `-`,
lower-cased (in that source order). -/
def cleanAccountIdentifier (ar : AccountRole) : String :=
  let ident := if ar.accountName = "" then ar.accountID else ar.accountName
  strToLower (replaceAllChar (replaceAllChar ident ' ' '-') '.' '-')

/-- Role-name simplification of generate_profiles.go:515-522. -/
def simplifyRoleName (roleName : String) : String :=
  let r := strToLower roleName
  if containsSubstr r "itfrun-operator" then "operator"
  else if strStartsWith r "itfrun-" then strStripStart "itfrun-" r
  else r

/-- The synthesized profile name `<identifier>-<role>`
(generate_profiles.go:525). -/
def profileName (ar : AccountRole) : String :=
  cleanAccountIdentifier ar ++ "-" ++ simplifyRoleName ar.roleName

/-- The profile-name transform as the spec's words describe it (claim C6):
identifier lower-cased first, then spaces and literal `.` replaced by `-`;
role checks performed on the lower-cased role name. -/
def profileNameSpec (ar : AccountRole) : String :=
  let identifier := if ar.accountName = "" then ar.accountID else ar.accountName
  let cleaned := replaceAllChar (replaceAllChar (strToLower identifier) ' ' '-') '.' '-'
  let lowerRole := strToLower ar.roleName
  let role :=
    if containsSubstr lowerRole "itfrun-operator" then "operator"
    else if strStartsWith lowerRole "itfrun-" then strStripStart "itfrun-" lowerRole
    else lowerRole
  cleaned ++ "-" ++ role

/-! ## Deterministic enumeration order (generate_profiles.go:483-491) -/

/-- The comparison used by `sort.Slice` at generate_profiles.go:484-489, in
non-strict (total) form: ascending by `(AccountName, RoleName)`. -/
def arLe (a b : AccountRole) : Prop :=
  strLt a.accountName b.accountName ∨
    (a.accountName = b.accountName ∧ strLe a.roleName b.roleName)

instance : DecidableRel arLe := fun a b => by
  unfold arLe strLt strLe; infer_instance

/-- The sort performed at the end of `listAccountRoles`
(generate_profiles.go:483-489); `sort.Slice` is modelled by a sorting
algorithm meeting the same contract (a permutation sorted by the
comparator). -/
def sortAccountRoles (l : List AccountRole) : List AccountRole :=
  List.insertionSort arLe l

/-- Sort key of an `AccountRole`: the pair the comparator looks at. -/
def arKey (a : AccountRole) : String × String := (a.accountName, a.roleName)

/-! ## Token Cache Resolver (generate_profiles.go:386-437) -/

/-- `SSOCacheToken` (generate_profiles.go:61-66).  `ExpiresAt` is a point in
time modelled as an integer instant; `time.Now().After t` is `now > t`. -/
structure SSOCacheToken where
  accessToken : String
  expiresAt : Int
  region : String
  startURL : String
  deriving DecidableEq, Repr

/-- `readTokenFromCache` (generate_profiles.go:415-437).  The JSON parse of
one cache artifact is modelled by an `Option SSOCacheToken` (`none` =
unparsable). -/
def readTokenFromCache (artifact : Option SSOCacheToken) (startURL : String)
    (now : Int) : Except String String :=
  match artifact with
  | none => .error "failed to parse cache file"
  | some token =>
    if token.startURL ≠ startURL then .error "cache file does not match start URL"
    else if now > token.expiresAt then .error "token is expired"
    else .ok token.accessToken

/-- `getSSOAccessToken`'s scan of the cache directory
(generate_profiles.go:402-412): first artifact that reads back without error
with a non-empty token wins; otherwise the terminal no-valid-token error. -/
def getSSOAccessToken (artifacts : List (Option SSOCacheToken))
    (startURL : String) (now : Int) : Except String String :=
  match artifacts with
  | [] => .error "no valid SSO token found"
  | a :: rest =>
    match readTokenFromCache a startURL now with
    | .ok tok => if tok ≠ "" then .ok tok else getSSOAccessToken rest startURL now
    | .error _ => getSSOAccessToken rest startURL now

/-! ## Account/Role Enumerator (generate_profiles.go:439-492)

The AWS SDK paginators are embedded faithfully: a paginator carries
`(firstPage, nextToken)`; `HasMorePages` is `firstPage || nextToken non-empty`;
`NextPage` calls the client with the current token and updates the state only
on success (on error the state is unchanged — exactly the SDK behaviour the
source's `continue` interacts with).  Loops are given explicit fuel; a result
of `none` means the fuel ran out with the loop still running, i.e. the Go code
never exits the loop under a persistently failing client. -/

structure Page (α : Type) where
  items : List α
  nextToken : Option String

structure PagState where
  firstPage : Bool
  nextToken : Option String

def hasMorePages (s : PagState) : Bool :=
  s.firstPage || (match s.nextToken with | some t => decide (t ≠ "") | none => false)

/-- One `NextPage` call: client invoked with the current token; paginator
state advances only on success. -/
def nextPage {α : Type} (client : Option String → Except String (Page α))
    (s : PagState) : Except String (Page α × PagState) :=
  match client s.nextToken with
  | .error e => .error e
  | .ok pg => .ok (pg, ⟨false, pg.nextToken⟩)

structure SSOAccount where
  accountId : String
  accountName : String
  emailAddress : String
  deriving DecidableEq, Repr

/-- The opaque paginated directory: `listAccounts` / `listRoles` clients. -/
structure SSODirectory where
  accountsClient : Option String → Except String (Page SSOAccount)
  rolesClient : String → Option String → Except String (Page String)

/-- The inner `for rolesPaginator.HasMorePages()` loop of
generate_profiles.go:464-479, including the `continue` on error at line 468,
which re-enters the same loop with the paginator state unchanged. -/
def rolesLoopGo (client : Option String → Except String (Page String)) :
    Nat → PagState → List String → Option (List String)
  | 0, _, _ => none
  | fuel + 1, s, acc =>
    if hasMorePages s then
      match nextPage client s with
      | .error _ => rolesLoopGo client fuel s acc
      | .ok (pg, s') => rolesLoopGo client fuel s' (acc ++ pg.items)
    else some acc

/-- Processing of one accounts page (generate_profiles.go:456-480): for each
account fully drain its roles pages.  `none` propagates a roles loop that
never terminated. -/
def accountRolesOfPage (dir : SSODirectory) (fuel : Nat)
    (accts : List SSOAccount) (acc : List AccountRole) :
    Option (List AccountRole) :=
  accts.foldl
    (fun macc a =>
      match macc with
      | none => none
      | some l =>
        match rolesLoopGo (dir.rolesClient a.accountId) fuel ⟨true, none⟩ [] with
        | none => none
        | some roles =>
          some (l ++ roles.map
            (fun r => AccountRole.mk a.accountId a.accountName r a.emailAddress)))
    (some acc)

/-- The outer `for accountsPaginator.HasMorePages()` loop
(generate_profiles.go:449-481).  An accounts-page failure aborts the whole
enumeration with an error (line 452). -/
def accountsLoopGo (dir : SSODirectory) :
    Nat → PagState → List AccountRole → Except String (Option (List AccountRole))
  | 0, _, _ => .ok none
  | fuel + 1, s, acc =>
    if hasMorePages s then
      match nextPage dir.accountsClient s with
      | .error e => .error ("failed to list accounts: " ++ e)
      | .ok (pg, s') =>
        match accountRolesOfPage dir fuel pg.items acc with
        | none => .ok none
        | some acc' => accountsLoopGo dir fuel s' acc'
    else .ok (some acc)

/-- `listAccountRoles` (generate_profiles.go:439-492): drain the directory,
then sort by `(AccountName, RoleName)`. -/
def listAccountRoles (dir : SSODirectory) (fuel : Nat) :
    Except String (Option (List AccountRole)) :=
  match accountsLoopGo dir fuel ⟨true, none⟩ [] with
  | .error e => .error e
  | .ok none => .ok none
  | .ok (some l) => .ok (some (sortAccountRoles l))

/-! ## Kubeconfig model (cluster.go, generate_profiles.go:820-1002) -/

/-- `ClusterInfo` (cluster.go:14-23). -/
structure ClusterInfo where
  name : String
  endpoint : String
  certificateData : String
  region : String
  arn : String
  authCommand : String
  authArgs : List String
  authEnv : List (String × String)
  deriving DecidableEq, Repr

/-- Generic associative upsert: Go map assignment `m[k] = v` / client-go map
update, modelled on an association list in insertion order (keys are unique
in every use; an existing key's entry is replaced in place, a new key is
appended). -/
def upsertA {α : Type} : List (String × α) → String → α → List (String × α)
  | [], k, v => [(k, v)]
  | p :: rest, k, v => if p.1 = k then (k, v) :: rest else p :: upsertA rest k v

/-- Go map lookup `m[k]`. -/
def lookupA {α : Type} : List (String × α) → String → Option α
  | [], _ => none
  | p :: rest, k => if p.1 = k then some p.2 else lookupA rest k

structure KubeClusterEntry where
  server : String
  certificateAuthorityData : String
  deriving DecidableEq, Repr

structure ExecEnvVar where
  name : String
  value : String
  deriving DecidableEq, Repr

structure ExecConfig where
  apiVersion : String
  command : String
  args : List String
  env : List ExecEnvVar
  deriving DecidableEq, Repr

structure KubeAuthInfo where
  exec : Option ExecConfig
  deriving DecidableEq, Repr

structure KubeContextEntry where
  cluster : String
  authInfo : String
  deriving DecidableEq, Repr

structure KubeConfig where
  clusters : List (String × KubeClusterEntry)
  authInfos : List (String × KubeAuthInfo)
  contexts : List (String × KubeContextEntry)
  currentContext : String
  deriving DecidableEq, Repr

def emptyKubeConfig : KubeConfig := ⟨[], [], [], ""⟩

/-- `createOrUpdateKubeContext` (generate_profiles.go:820-896): upsert the
cluster entry keyed by Arn, the exec auth entry keyed by Arn, the context
keyed by Name binding the two, and set the current context. -/
def createOrUpdateKubeContext (cfg : KubeConfig) (ci : ClusterInfo) : KubeConfig :=
  let clusterEntry : KubeClusterEntry := ⟨ci.endpoint, ci.certificateData⟩
  let authEntry : KubeAuthInfo :=
    ⟨some ⟨"client.authentication.k8s.io/v1beta1", ci.authCommand, ci.authArgs,
      ci.authEnv.map (fun p => ⟨p.1, p.2⟩)⟩⟩
  { clusters := upsertA cfg.clusters ci.arn clusterEntry
    authInfos := upsertA cfg.authInfos ci.arn authEntry
    contexts := upsertA cfg.contexts ci.name ⟨ci.arn, ci.arn⟩
    currentContext := ci.name }

/-- The kubelogin exec descriptor of `addAzureUser`
(generate_profiles.go:927-937); the Azure ids (generate_profiles.go:678-693)
are opaque here. -/
def azureUserExec (serverID clientID tenantID : String) : ExecConfig :=
  ⟨"client.authentication.k8s.io/v1beta1", "kubelogin",
    ["get-token", "--environment", "AzurePublicCloud",
     "--server-id", serverID, "--client-id", clientID, "--tenant-id", tenantID], []⟩

/-- `addAzureUser` (generate_profiles.go:898-949): upsert the fixed-alias
credential entry `azure-user`. -/
def addAzureUser (cfg : KubeConfig) (serverID clientID tenantID : String) :
    KubeConfig :=
  { cfg with authInfos :=
      upsertA cfg.authInfos "azure-user" ⟨some (azureUserExec serverID clientID tenantID)⟩ }

/-- The cluster reference `addAzureContext` (generate_profiles.go:957-979)
writes into the `entraid-` context: the cluster field of the existing context
for `cluster` — copied verbatim, without checking that any cluster entry of
that name exists — falling back to the raw cluster name when no such context
exists or its cluster field is empty. -/
def azureClusterRef (contexts : List (String × KubeContextEntry))
    (cluster : String) : String :=
  let arn0 := match lookupA contexts cluster with
    | some c => c.cluster
    | none => cluster
  if arn0 = "" then cluster else arn0

/-- `addAzureContext` (generate_profiles.go:951-1002): upsert the
`entraid-<cluster>` context pointing the copied (possibly dangling) cluster
reference at the `azure-user` credential. -/
def addAzureContext (cfg : KubeConfig) (cluster : String) : KubeConfig :=
  let ref := azureClusterRef cfg.contexts cluster
  { cfg with contexts := upsertA cfg.contexts ("entraid-" ++ cluster) ⟨ref, "azure-user"⟩ }

/-- `updateKubeconfig` (generate_profiles.go:780-810) on its all-successful
path: the primary context update, then the secondary-identity overlay. -/
def updateKubeconfig (cfg : KubeConfig) (ci : ClusterInfo) (cluster : String)
    (serverID clientID tenantID : String) : KubeConfig :=
  addAzureContext
    (addAzureUser (createOrUpdateKubeContext cfg ci) serverID clientID tenantID)
    cluster

/-! ## Whitespace trimming (`strings.TrimSpace`, ASCII fragment) -/

def isWs (c : Char) : Bool :=
  c = ' ' ∨ c = '\t' ∨ c = '\n' ∨ c = '\r' ∨ c = '\x0b' ∨ c = '\x0c'

def trimL (l : List Char) : List Char := l.dropWhile isWs

/-- Drop trailing whitespace. -/
def trimR : List Char → List Char
  | [] => []
  | c :: rest =>
    match trimR rest with
    | [] => if isWs c then [] else [c]
    | r => c :: r

def trimLst (l : List Char) : List Char := trimR (trimL l)

/-- `strings.TrimSpace`. -/
def trimSpace (s : String) : String := ⟨trimLst s.data⟩

/-! ## Switch-workflow selection (generate_profiles.go:740-772, use.go:50-77) -/

def isDigit (c : Char) : Bool := '0' ≤ c ∧ c ≤ '9'

def digitsVal (l : List Char) : Nat :=
  l.foldl (fun a c => a * 10 + (c.toNat - 48)) 0

/-- `strconv.Atoi`: optional sign followed by at least one digit.  The 64-bit
range error is not modelled: it can only fire on values far outside any
cluster-list length, where both the model and Go reject the selection. -/
def atoi (s : String) : Option Int :=
  match s.data with
  | [] => none
  | '+' :: rest =>
    if rest ≠ [] ∧ rest.all isDigit then some (digitsVal rest) else none
  | '-' :: rest =>
    if rest ≠ [] ∧ rest.all isDigit then some (-(digitsVal rest : Int)) else none
  | l => if l.all isDigit then some (digitsVal l) else none

/-- Cluster selection of `useCmd` (generate_profiles.go:740-772): no clusters
→ nothing selected; exactly one → auto-selected with no prompt (the input is
ignored); otherwise the 1-based numeric choice, rejected unless it parses and
lies in `1..n`. -/
def selectCluster (clusterList : List String) (input : String) : Option String :=
  match clusterList with
  | [] => none
  | [c] => some c
  | _ =>
    match atoi (trimSpace input) with
    | none => none
    | some choice =>
      if choice < 1 ∨ choice > (clusterList.length : Int) then none
      else clusterList.get? (choice - 1).toNat

/-- The `use` workflow's effect on the kubeconfig store: a failed selection
ends the command (`return` at generate_profiles.go:767) before any store
mutation; a successful one runs `updateKubeconfig`. -/
def useFlow (store : KubeConfig) (provider : String → ClusterInfo)
    (clusterList : List String) (input : String)
    (serverID clientID tenantID : String) : KubeConfig :=
  match selectCluster clusterList input with
  | none => store
  | some c => updateKubeconfig store (provider c) c serverID clientID tenantID

/-! ## Start-URL flag sanitization (generate_profiles.go:79-82, 287-291) -/

/-- `strings.TrimRight s cutset`: drop every trailing character belonging to
the cutset. -/
def trimRightCut (s : String) (cut : List Char) : String :=
  ⟨(s.data.reverse.dropWhile (fun c => cut.contains c)).reverse⟩

/-- The sanitization applied to `--sso-start-url`
(generate_profiles.go:81, 288): `strings.TrimRight(flag, "#/\\")`. -/
def sanitizeStartURL (flag : String) : String :=
  trimRightCut flag ['#', '/', '\\']

/-! ## The AWS config store (gopkg.in/ini.v1 through the source's usage)

`IniFile` models a loaded `ini.File` as `Sections()` exposes it: the implicit
`DEFAULT` section first, then the remaining sections in file/creation order;
each section's keys in insertion order with unique names (`NewKey` upserts).
-/

structure IniSection where
  name : String
  keys : List (String × String)
  deriving DecidableEq, Repr

structure IniFile where
  sections : List IniSection
  deriving DecidableEq, Repr

/-- `ini.Empty()`. -/
def emptyIni : IniFile := ⟨[⟨"DEFAULT", []⟩]⟩

/-- Key comparison of the `sort.Slice` at generate_profiles.go:615-617. -/
def keyLe (a b : String × String) : Prop := strLe a.1 b.1

instance : DecidableRel keyLe := fun a b => by
  unfold keyLe strLe; infer_instance

def sortKeysList (ks : List (String × String)) : List (String × String) :=
  List.insertionSort keyLe ks

/-- The section-header line written at generate_profiles.go:608. -/
def headerLine (n : String) : List Char := '[' :: (n.data ++ [']'])

/-- The `key = value` line written at generate_profiles.go:622. -/
def kvLine (kv : String × String) : List Char :=
  kv.1.data ++ ' ' :: '=' :: ' ' :: kv.2.data

/-- The lines `writeConfigWithoutEscaping` (generate_profiles.go:596-637)
emits for one section: header (omitted for `DEFAULT`), keys sorted by name,
then a blank line. -/
def sectionLines (s : IniSection) : List (List Char) :=
  (if s.name = "DEFAULT" then [] else [headerLine s.name]) ++
    (sortKeysList s.keys).map kvLine ++ [[]]

def fileLines (f : IniFile) : List (List Char) :=
  (f.sections.map sectionLines).flatten

def joinNl (ls : List (List Char)) : List Char :=
  (ls.map (· ++ ['\n'])).flatten

/-- The full file content produced by `writeConfigWithoutEscaping`: every
line terminated by a newline, values written verbatim with no escaping. -/
def render (f : IniFile) : String := ⟨joinNl (fileLines f)⟩

/-! ### Loading the store (`ini.Load` on the sectioned key=value format)

The loader parses the plain sectioned `key = value` text the spec's interface
section describes: `[name]` headers (name taken up to the last `]`, as go-ini
does), `key = value` lines split at the first delimiter with both sides
trimmed, `#`/`;` comment lines and blank lines skipped, content before the
first header attached to the implicit `DEFAULT` section, duplicate sections
and keys merged by upsert.  A malformed line (a header without `]`, or a
non-comment line without a delimiter) fails the load, as `ini.Load` does. -/

/-- Split a character stream into lines at `'\n'`. -/
def splitNl : List Char → List (List Char)
  | [] => [[]]
  | c :: rest =>
    if c = '\n' then [] :: splitNl rest
    else
      match splitNl rest with
      | [] => [[c]]
      | l :: ls => (c :: l) :: ls

/-- Not a `key = value` delimiter (go-ini's delimiters are `=` and `:`). -/
def nonDelim (c : Char) : Bool := ¬(c = '=' ∨ c = ':')

structure PState where
  secs : List IniSection
  cur : String
  deriving DecidableEq, Repr

def initPState : PState := ⟨[⟨"DEFAULT", []⟩], "DEFAULT"⟩

/-- `NewSection` while loading: merge into an existing section of the same
name, otherwise append. -/
def addSec (secs : List IniSection) (n : String) : List IniSection :=
  if secs.any (fun s => s.name = n) then secs else secs ++ [⟨n, []⟩]

/-- `NewKey` applied to one section: upsert when it is the section currently
being read, otherwise leave it alone. -/
def updSec (cur k v : String) (s : IniSection) : IniSection :=
  if s.name = cur then ⟨s.name, upsertA s.keys k v⟩ else s

/-- `NewKey` into the section currently being read: upsert by key name. -/
def addKeyTo (secs : List IniSection) (cur k v : String) : List IniSection :=
  secs.map (updSec cur k v)

/-- Section-name extraction from a header line's body: up to the last `]`
(as go-ini's `LastIndex` does); no `]` is a load error. -/
def parseHeaderName (body : List Char) : Option String :=
  match body.reverse.dropWhile (fun d => d ≠ ']') with
  | [] => none
  | _ :: nameRev => some ⟨nameRev.reverse⟩

/-- An inline-comment starter: go-ini's default `Load` cuts an unquoted value
at the first `#` or `;` (`strings.IndexAny(line, "#;")` in `readValue`). -/
def isInlineCmt (c : Char) : Bool := c = '#' ∨ c = ';'

/-- The inline-comment cut of go-ini's `readValue` (default options, i.e.
`IgnoreInlineComment = false`, `SpaceBeforeInlineComment = false`): when the
trimmed value contains `#` or `;`, keep only the part before the first one,
re-trimmed. -/
def cutInlineComment (l : List Char) : List Char :=
  if l.any isInlineCmt then trimLst (l.takeWhile (fun c => !(isInlineCmt c))) else l

/-- go-ini's `hasSurroundedQuote`: at least two characters, first and last
both the quote. -/
def hasSurroundedQuote (l : List Char) (q : Char) : Bool :=
  decide (2 ≤ l.length) && decide (l.head? = some q) && decide (l.getLast? = some q)

/-- The backtick branch of go-ini's `readValue`: the value runs to the *last*
backtick (`strings.LastIndex`), raw, anything after it discarded; a missing
closing backtick is a load error. -/
def readBacktick (rest : List Char) : Option (List Char) :=
  match rest.reverse.dropWhile (fun c => c ≠ '`') with
  | [] => none
  | _ :: revVal => some revVal.reverse

/-- go-ini strips one layer of surrounding single or double quotes from an
unquoted-path value (`PreserveSurroundedQuote` is off by default). -/
def unquoteVal (t2 : List Char) : List Char :=
  if hasSurroundedQuote t2 '\'' || hasSurroundedQuote t2 '"' then
    (t2.drop 1).dropLast
  else t2

/-- `readValue` of gopkg.in/ini.v1 with the source's (all-default) load
options, on the already left-trimmed value bytes: empty value, raw
backtick-quoted value, or the unquoted path — trim, cut at the first inline
`#`/`;` comment, strip one layer of surrounding quotes.  (Continuation lines
ending in `\`, triple-double-quoted values and quoted key names are not
modelled; the plain-value hypotheses of the round-trip theorems exclude
them.) -/
def readValueCore : List Char → Option (List Char)
  | [] => some []
  | c :: rest =>
    if c = '`' then readBacktick rest
    else some (unquoteVal (cutInlineComment (trimR (c :: rest))))

/-- go-ini `readValue` on the raw bytes after the delimiter. -/
def readValue (raw : List Char) : Option (List Char) :=
  readValueCore (trimL raw)

/-- `key = value` extraction: split at the first delimiter, trim the key side,
read the value side with go-ini's `readValue` (inline comments, backticks,
quote stripping); no delimiter, or an unclosed backtick value, is a load
error. -/
def parseKVLine (t : List Char) : Option (String × String) :=
  match t.dropWhile nonDelim with
  | [] => none
  | _ :: rest =>
    match readValue rest with
    | none => none
    | some vd => some (⟨trimLst (t.takeWhile nonDelim)⟩, ⟨vd⟩)

/-- Dispatch on the (already trimmed) line content. -/
def parseLineCore (st : PState) : List Char → Option PState
  | [] => some st
  | c :: body =>
    if c = '#' ∨ c = ';' then some st
    else if c = '[' then
      match parseHeaderName body with
      | none => none
      | some n => some ⟨addSec st.secs n, n⟩
    else
      match parseKVLine (c :: body) with
      | none => none
      | some (k, v) => some ⟨addKeyTo st.secs st.cur k v, st.cur⟩

/-- Parse one line (`none` = load error, absorbing). -/
def parseLine (st : Option PState) (line : List Char) : Option PState :=
  match st with
  | none => none
  | some st => parseLineCore st (trimLst line)

/-- `ini.Load` of raw text. -/
def parseIni (s : String) : Option IniFile :=
  match (splitNl s.data).foldl parseLine (some initPState) with
  | none => none
  | some st => some ⟨st.secs⟩

/-! ### Generating and writing the profiles
(generate_profiles.go:494-552 and 554-593) -/

/-- `DeleteSection` (generate_profiles.go:577). -/
def deleteSection (f : IniFile) (n : String) : IniFile :=
  ⟨f.sections.filter (fun s => s.name ≠ n)⟩

/-- Section built by the `NewKey` loop at generate_profiles.go:586-588. -/
def buildKeys (kv : List (String × String)) : List (String × String) :=
  kv.foldl (fun a p => upsertA a p.1 p.2) []

/-- The add-or-update loop of `writeProfilesToConfig`
(generate_profiles.go:573-589): per profile, delete the section
`profile <name>` then recreate it at the end. -/
def applyProfiles (f : IniFile)
    (profiles : List (String × List (String × String))) : IniFile :=
  profiles.foldl
    (fun acc p =>
      ⟨(deleteSection acc ("profile " ++ p.1)).sections ++
        [⟨"profile " ++ p.1, buildKeys p.2⟩]⟩)
    f

/-- The store `writeProfilesToConfig` starts from: load the existing bytes,
falling back to an empty store on a missing or unparsable file. -/
def loadedConfig (prior : Option String) : IniFile :=
  match prior with
  | none => emptyIni
  | some txt => (parseIni txt).getD emptyIni

/-- `writeProfilesToConfig` (generate_profiles.go:554-593) as a function from
the prior on-disk bytes (`none` = file absent) to the new bytes: load the
existing store, replace the given profile sections wholesale, and write the
result without escaping.  The `profiles` argument carries the iteration
order of the `range profiles` Go map loop at line 573: Go randomizes it per
run, so a re-run over the same map is modelled by any permutation of the
list. -/
def writeProfilesToConfig (prior : Option String)
    (profiles : List (String × List (String × String))) : String :=
  render (applyProfiles (loadedConfig prior) profiles)

/-! ### The flag-branch minimal config (generate_profiles.go:86-106) and
`createDefaultSSOConfiguration` (generate_profiles.go:250-330) -/

/-- The minimal config created when `--sso-start-url` is supplied and no
config file exists (generate_profiles.go:88-99): `ini.Empty()` plus the
`sso-session DEFAULT-SSO` and `profile DEFAULT-SSO` sections, the start URL
already sanitized at line 81. -/
def flagBranchMinimalConfig (flag defaultRegion : String) : IniFile :=
  let ssoStartURL := sanitizeStartURL flag
  ⟨[⟨"DEFAULT", []⟩,
    ⟨"sso-session DEFAULT-SSO",
      [("sso_start_url", ssoStartURL), ("sso_region", defaultRegion),
       ("sso_registration_scopes", "sso:account:access")]⟩,
    ⟨"profile DEFAULT-SSO",
      [("sso_start_url", ssoStartURL), ("sso_region", defaultRegion),
       ("sso_role_name", "itfrun-operator"), ("region", defaultRegion),
       ("output", "json")]⟩]⟩

/-- The per-section comparison of the flag branch
(generate_profiles.go:110-119): a section matches when its `sso_start_url`
key equals the sanitized flag value. -/
def sectionMatchesFlag (s : IniSection) (flag : String) : Bool :=
  lookupA s.keys "sso_start_url" = some (sanitizeStartURL flag)

/-- `createDefaultSSOConfiguration` (generate_profiles.go:250-330) on a
loaded config: sanitize the flag (line 288), fail if empty, then create the
missing `sso-session DEFAULT-SSO` / `profile DEFAULT-SSO` sections. -/
def createDefaultSSOConfiguration (cfg : IniFile) (flag defaultRegion : String) :
    Except String IniFile :=
  let ssoStartURL := sanitizeStartURL flag
  if ssoStartURL = "" then
    .error "No SSO start URL provided. Please use --sso-start-url flag."
  else
    let cfg1 :=
      if cfg.sections.any (fun s => s.name = "sso-session DEFAULT-SSO") then cfg
      else ⟨cfg.sections ++
        [⟨"sso-session DEFAULT-SSO",
          [("sso_start_url", ssoStartURL), ("sso_region", defaultRegion),
           ("sso_registration_scopes", "sso:account:access")]⟩]⟩
    let cfg2 :=
      if cfg1.sections.any (fun s => s.name = "profile DEFAULT-SSO") then cfg1
      else ⟨cfg1.sections ++
        [⟨"profile DEFAULT-SSO",
          [("sso_start_url", ssoStartURL), ("sso_region", defaultRegion),
           ("sso_role_name", "itfrun-operator"), ("region", defaultRegion),
           ("output", "json")]⟩]⟩
    .ok cfg2

/-! ### Atomic write (generate_profiles.go:596-637)

`writeConfigWithoutEscaping` creates a temporary file in the target's own
directory (`os.CreateTemp(filepath.Dir(configPath), ...)`, which is what
makes the final `os.Rename` an atomic same-filesystem replace), streams the
rendered lines into it, and renames it over the target; the deferred
`os.Remove`/`Close` run after the rename.  The file system is modelled by the
target's content and the temp file's content, with a crash at any point
modelled as stopping after a prefix of the operation trace. -/

inductive FsOp where
  | createTemp
  | writeTemp (chunk : List Char)
  | closeTemp
  | renameTempToTarget
  | removeTemp
  deriving DecidableEq, Repr

structure FsState where
  target : Option String
  temp : Option (List Char)
  deriving DecidableEq, Repr

def applyOp (s : FsState) (op : FsOp) : FsState :=
  match op with
  | .createTemp => { s with temp := some [] }
  | .writeTemp c => { s with temp := s.temp.map (· ++ c) }
  | .closeTemp => s
  | .renameTempToTarget =>
    match s.temp with
    | some content => ⟨some ⟨content⟩, none⟩
    | none => s
  | .removeTemp => { s with temp := none }

def applyOps (s : FsState) (ops : List FsOp) : FsState := ops.foldl applyOp s

/-- The operation trace of `writeConfigWithoutEscaping`: create the temp
file, write the file line by line, close, rename over the target, then the
deferred remove (a no-op: the temp name no longer exists) and close. -/
def writeConfigOps (cfg : IniFile) : List FsOp :=
  [FsOp.createTemp] ++ (fileLines cfg).map (fun l => FsOp.writeTemp (l ++ ['\n'])) ++
    [FsOp.closeTemp, FsOp.renameTempToTarget, FsOp.removeTemp, FsOp.closeTemp]

/-- The part of the trace strictly before the rename. -/
def writePreOps (cfg : IniFile) : List FsOp :=
  FsOp.createTemp :: ((fileLines cfg).map (fun l => FsOp.writeTemp (l ++ ['\n'])) ++
    [FsOp.closeTemp])

/-! ## Auxiliary definitions for the statements and proofs -/

/-- Reading one value back from the raw store bytes: `ini.Load`, find the
section, read the key — the load path of the round-trip property. -/
def loadProfileValue (txt : String) (sec key : String) : Option String :=
  (parseIni txt).bind fun f =>
    (f.sections.find? (fun s => s.name = sec)).bind fun s => lookupA s.keys key

/-- Well-formedness of a key name for the sectioned key=value format: exactly
the closure properties the loader guarantees for keys it produces. -/
def KeyOK (k : String) : Prop :=
  '\n' ∉ k.data ∧ trimLst k.data = k.data ∧ '=' ∉ k.data ∧ ':' ∉ k.data ∧
    ∀ c, k.data.head? = some c → (c ≠ '[' ∧ c ≠ '#' ∧ c ≠ ';')

/-- A newline-free, trimmed value. -/
def ValOK (v : String) : Prop := '\n' ∉ v.data ∧ trimLst v.data = v.data

/-- A *plain* value: one that go-ini's `readValue` returns unchanged —
trimmed, newline-free, containing no inline-comment character `#`/`;`, not
backtick- or double-quote-led, not quote-surrounded, and not ending in the
continuation character `\`.  Only plain values survive a write-then-load
byte-for-byte. -/
def ValPlain (v : String) : Prop :=
  ValOK v ∧ '#' ∉ v.data ∧ ';' ∉ v.data ∧
    v.data.head? ≠ some '`' ∧ v.data.head? ≠ some '"' ∧
    hasSurroundedQuote v.data '\'' = false ∧
    hasSurroundedQuote v.data '"' = false ∧
    v.data.getLast? ≠ some '\\'

instance : DecidablePred KeyOK := fun k => by unfold KeyOK; infer_instance

instance : DecidablePred ValOK := fun v => by unfold ValOK; infer_instance

instance : DecidablePred ValPlain := fun v => by unfold ValPlain; infer_instance

/-- Canonical form of a loaded config: the invariant `ini.Load` establishes
on every file it accepts (and that `ini.Empty()` satisfies).  Values are only
guaranteed newline-free: the loader's backtick path admits `#`/`;` inside a
value, and its quote-stripping can produce untrimmed or re-quoted values. -/
structure Canonical (f : IniFile) : Prop where
  shape : ∃ ks0 rest, f.sections = ⟨"DEFAULT", ks0⟩ :: rest ∧
    ∀ s ∈ rest, s.name ≠ "DEFAULT"
  nodupNames : (f.sections.map (fun s => s.name)).Nodup
  namesOK : ∀ s ∈ f.sections, '\n' ∉ s.name.data
  keysND : ∀ s ∈ f.sections, (s.keys.map Prod.fst).Nodup
  keysOK : ∀ s ∈ f.sections, ∀ kv ∈ s.keys, KeyOK kv.1 ∧ '\n' ∉ kv.2.data

/-- A store all of whose values are plain (the condition under which a
rendered store reloads to exactly the written content). -/
def PlainFile (f : IniFile) : Prop :=
  ∀ s ∈ f.sections, ∀ kv ∈ s.keys, ValPlain kv.2

instance : DecidablePred PlainFile := fun f => by unfold PlainFile; infer_instance

/-- The same invariant on a parser state. -/
def StInv (st : PState) : Prop := Canonical ⟨st.secs⟩

/-- Key-sorting normalisation of one section (what a load-after-write adds on
top of the written sections). -/
def canonSec (s : IniSection) : IniSection := ⟨s.name, sortKeysList s.keys⟩

def canonK (f : IniFile) : IniFile := ⟨f.sections.map canonSec⟩

/-- A section survives the profile update iff its name is not `profile <n>`
for any profile `n` in `P`. -/
def keepSec (P : List (String × List (String × String))) (s : IniSection) : Bool :=
  !(P.any (fun p => s.name = "profile " ++ p.1))

/-- Sections of `f` untouched by the profile update. -/
def delAllP (f : IniFile) (P : List (String × List (String × String))) :
    List IniSection :=
  f.sections.filter (keepSec P)

/-- The freshly created profile sections, in update order. -/
def newSecs (P : List (String × List (String × String))) : List IniSection :=
  P.map (fun p => ⟨"profile " ++ p.1, buildKeys p.2⟩)

/-- Well-formedness of a profile mapping as `generateProfilesFromAccountRoles`
produces it (keys well formed, values plain). -/
def ProfilesWF (P : List (String × List (String × String))) : Prop :=
  (P.map Prod.fst).Nodup ∧
    ∀ p ∈ P, '\n' ∉ p.1.data ∧ ∀ kv ∈ p.2, KeyOK kv.1 ∧ ValPlain kv.2

instance : DecidablePred ProfilesWF := fun P => by unfold ProfilesWF; infer_instance

/-- Strict-by-key version of the enumerator order, used to show the sorted
output is input-order independent when the `(AccountName, RoleName)` keys are
distinct. -/
def arLtK (a b : AccountRole) : Prop := arLe a b ∧ arKey a ≠ arKey b

/-- Directory with two accounts in which the first account's role listing
fails persistently (the concrete failing input of the partial-result
policy). -/
def stuckDir : SSODirectory :=
  ⟨fun _ => .ok ⟨[⟨"111111111111", "Acc1", "a@example.com"⟩,
                  ⟨"222222222222", "Acc2", "b@example.com"⟩], none⟩,
   fun acctId _ =>
     if acctId = "111111111111" then .error "access denied"
     else .ok ⟨["RoleA"], none⟩⟩

/-- Directory whose accounts listing itself fails. -/
def acctFailDir : SSODirectory :=
  ⟨fun _ => .error "network error", fun _ _ => .ok ⟨[], none⟩⟩

/-- Two accounts with the *same* display name (account names are not unique)
and the same role — equal `(AccountName, RoleName)` sort keys, different
AccountIDs. -/
def tieDirA : SSODirectory :=
  ⟨fun _ => .ok ⟨[⟨"111111111111", "Acc", "a@example.com"⟩,
                  ⟨"222222222222", "Acc", "b@example.com"⟩], none⟩,
   fun _ _ => .ok ⟨["RoleA"], none⟩⟩

/-- The same directory content with the accounts page listing the two
accounts in the opposite order. -/
def tieDirB : SSODirectory :=
  ⟨fun _ => .ok ⟨[⟨"222222222222", "Acc", "b@example.com"⟩,
                  ⟨"111111111111", "Acc", "a@example.com"⟩], none⟩,
   fun _ _ => .ok ⟨["RoleA"], none⟩⟩

def arTieA : AccountRole := ⟨"111111111111", "Acc", "RoleA", "a@example.com"⟩

def arTieB : AccountRole := ⟨"222222222222", "Acc", "RoleA", "b@example.com"⟩

/-- Concrete `ClusterInfo` whose reported name differs from the selected
cluster name — the input exhibiting the `addAzureContext` fallback. -/
def fallbackCI : ClusterInfo :=
  ⟨"internal-name", "https://ep.example.com", "CADATA", "eu-central-1",
   "arn:aws:eks:eu-central-1:111111111111:cluster/internal-name", "aws",
   ["eks", "get-token"], [("AWS_PROFILE", "p")]⟩

/-- The kubeconfig store after a successful switch to cluster `c1` whose
provider-reported info is `fallbackCI`. -/
def fallbackStore : KubeConfig :=
  updateKubeconfig emptyKubeConfig fallbackCI "c1" "sid" "cid" "tid"

/-- A concrete cluster-info provider used to instantiate the workflow
statements. -/
def witnessProvider : String → ClusterInfo :=
  fun n => ⟨n, "https://ep", "CA", "eu-central-1", "arn:" ++ n, "aws", [], []⟩

/-! ## Generic lemmas about the association-list operations -/

theorem lookupA_upsertA_self {α : Type} (m : List (String × α)) (k : String) (v : α) :
    lookupA (upsertA m k v) k = some v := by
  induction m with
  | nil => simp [upsertA, lookupA]
  | cons p rest ih =>
    by_cases hp : p.1 = k
    · simp [upsertA, lookupA, hp]
    · simp [upsertA, lookupA, hp, ih]

theorem lookupA_upsertA_ne {α : Type} (m : List (String × α)) (k k' : String) (v : α)
    (h : k' ≠ k) : lookupA (upsertA m k v) k' = lookupA m k' := by
  induction m with
  | nil => simp [upsertA, lookupA, Ne.symm h]
  | cons p rest ih =>
    by_cases hp : p.1 = k
    · simp [upsertA, lookupA, hp, h, Ne.symm h]
    · by_cases hp' : p.1 = k'
      · simp [upsertA, lookupA, hp, hp', h]
      · simp [upsertA, lookupA, hp, hp', ih]

theorem mem_upsertA {α : Type} {m : List (String × α)} {k : String} {v : α}
    {q : String × α} (hq : q ∈ upsertA m k v) : q ∈ m ∨ q = (k, v) := by
  induction m with
  | nil => simp [upsertA] at hq; simp [hq]
  | cons p rest ih =>
    by_cases hp : p.1 = k
    · simp only [upsertA, hp, if_true, List.mem_cons] at hq
      rcases hq with h | h
      · exact Or.inr h
      · exact Or.inl (List.mem_cons_of_mem _ h)
    · simp only [upsertA, hp, if_false, List.mem_cons] at hq
      rcases hq with h | h
      · exact Or.inl (h ▸ List.mem_cons_self _ _)
      · rcases ih h with h' | h'
        · exact Or.inl (List.mem_cons_of_mem _ h')
        · exact Or.inr h'

theorem mem_map_fst_upsertA {α : Type} {m : List (String × α)} {k x : String} {v : α}
    (hx : x ∈ (upsertA m k v).map Prod.fst) : x ∈ m.map Prod.fst ∨ x = k := by
  rcases List.mem_map.mp hx with ⟨q, hq, hfst⟩
  rcases mem_upsertA hq with h | h
  · exact Or.inl (hfst ▸ List.mem_map_of_mem _ h)
  · exact Or.inr (by rw [← hfst, h])

theorem map_fst_upsertA_nodup {α : Type} {m : List (String × α)} (k : String) (v : α)
    (h : (m.map Prod.fst).Nodup) : ((upsertA m k v).map Prod.fst).Nodup := by
  induction m with
  | nil => simp [upsertA]
  | cons p rest ih =>
    simp only [List.map_cons, List.nodup_cons] at h
    by_cases hp : p.1 = k
    · rw [show upsertA (p :: rest) k v = (k, v) :: rest from by simp [upsertA, hp]]
      simp only [List.map_cons, List.nodup_cons]
      exact ⟨hp ▸ h.1, h.2⟩
    · rw [show upsertA (p :: rest) k v = p :: upsertA rest k v from by simp [upsertA, hp]]
      simp only [List.map_cons, List.nodup_cons]
      refine ⟨fun hx => ?_, ih h.2⟩
      rcases mem_map_fst_upsertA hx with h' | h'
      · exact h.1 h'
      · exact hp (by rw [h'])

/-! ## Order theory of the Go string comparison -/

theorem strLtB_irrefl : ∀ l : List Char, strLtB l l = false
  | [] => rfl
  | c :: r => by simp [strLtB, strLtB_irrefl r]

theorem strLtB_trans : ∀ a b c : List Char,
    strLtB a b = true → strLtB b c = true → strLtB a c = true
  | [], [], _, hab, _ => by simp [strLtB] at hab
  | [], _ :: _, [], _, hbc => by simp [strLtB] at hbc
  | [], _ :: _, _ :: _, _, _ => rfl
  | _ :: _, [], _, hab, _ => by simp [strLtB] at hab
  | _ :: _, _ :: _, [], _, hbc => by simp [strLtB] at hbc
  | x :: xs, y :: ys, z :: zs, hab, hbc => by
    simp only [strLtB] at hab hbc ⊢
    by_cases hxy : x = y
    · subst hxy
      rw [if_pos rfl] at hab
      by_cases hxz : x = z
      · subst hxz
        rw [if_pos rfl] at hbc
        rw [if_pos rfl]
        exact strLtB_trans xs ys zs hab hbc
      · rw [if_neg hxz] at hbc
        rw [if_neg hxz]
        exact hbc
    · rw [if_neg hxy] at hab
      have hxy' : x < y := of_decide_eq_true hab
      by_cases hyz : y = z
      · subst hyz
        rw [if_neg hxy]
        exact hab
      · rw [if_neg hyz] at hbc
        have hyz' : y < z := of_decide_eq_true hbc
        have hxz' : x < z := hxy'.trans hyz'
        rw [if_neg (ne_of_lt hxz')]
        exact decide_eq_true hxz'

theorem strLtB_eq_of_both_false : ∀ a b : List Char,
    strLtB a b = false → strLtB b a = false → a = b
  | [], [], _, _ => rfl
  | [], _ :: _, hab, _ => by simp [strLtB] at hab
  | _ :: _, [], _, hba => by simp [strLtB] at hba
  | x :: xs, y :: ys, hab, hba => by
    simp only [strLtB] at hab hba
    by_cases hxy : x = y
    · subst hxy
      rw [if_pos rfl] at hab hba
      rw [strLtB_eq_of_both_false xs ys hab hba]
    · rw [if_neg hxy] at hab
      rw [if_neg (Ne.symm hxy)] at hba
      have h1 : ¬x < y := of_decide_eq_false hab
      have h2 : ¬y < x := of_decide_eq_false hba
      exact absurd (le_antisymm (not_lt.mp h2) (not_lt.mp h1)) hxy

theorem strLtB_asymm {a b : List Char} (h : strLtB a b = true) :
    strLtB b a = false := by
  by_contra hba
  have hba' : strLtB b a = true := by
    cases hx : strLtB b a
    · exact absurd hx hba
    · rfl
  exact absurd (strLtB_trans a b a h hba') (by simp [strLtB_irrefl])

theorem strLe_total (a b : String) : strLe a b ∨ strLe b a := by
  unfold strLe
  cases hx : strLtB a.data b.data
  · exact Or.inr rfl
  · exact Or.inl (strLtB_asymm hx)

theorem strLe_antisymm {a b : String} (hab : strLe a b) (hba : strLe b a) : a = b :=
  String.ext (strLtB_eq_of_both_false a.data b.data hba hab)

theorem strLe_trans {a b c : String} (hab : strLe a b) (hbc : strLe b c) :
    strLe a c := by
  unfold strLe at hab hbc ⊢
  cases hx : strLtB c.data a.data
  · rfl
  · exfalso
    cases hy : strLtB b.data c.data
    · have hbc2 : c.data = b.data := strLtB_eq_of_both_false _ _ hbc hy
      rw [hbc2, hab] at hx
      exact Bool.noConfusion hx
    · have htr := strLtB_trans _ _ _ hy hx
      rw [hab] at htr
      exact Bool.noConfusion htr

theorem arLe_total : ∀ a b : AccountRole, arLe a b ∨ arLe b a := by
  intro a b
  unfold arLe strLt
  cases hn : strLtB a.accountName.data b.accountName.data
  · cases hn' : strLtB b.accountName.data a.accountName.data
    · have heq : a.accountName = b.accountName :=
        String.ext (strLtB_eq_of_both_false _ _ hn hn')
      rcases strLe_total a.roleName b.roleName with h | h
      · exact Or.inl (Or.inr ⟨heq, h⟩)
      · exact Or.inr (Or.inr ⟨heq.symm, h⟩)
    · exact Or.inr (Or.inl rfl)
  · exact Or.inl (Or.inl rfl)

theorem arLe_trans : ∀ a b c : AccountRole, arLe a b → arLe b c → arLe a c := by
  intro a b c hab hbc
  unfold arLe strLt at hab hbc ⊢
  rcases hab with h1 | ⟨e1, r1⟩
  · rcases hbc with h2 | ⟨e2, _⟩
    · exact Or.inl (strLtB_trans _ _ _ h1 h2)
    · exact Or.inl (e2 ▸ h1)
  · rcases hbc with h2 | ⟨e2, r2⟩
    · exact Or.inl (e1 ▸ h2)
    · exact Or.inr ⟨e1.trans e2, strLe_trans r1 r2⟩

/-- C4 (counterexample): at the boundary instant `now = ExpiresAt` the
resolver still returns the token — `time.Now().After(ExpiresAt)` at
generate_profiles.go:432 is a strict comparison, so the claimed
`now ≥ ExpiresAt ⇒ Expired` fails at equality. -/
theorem readTokenFromCache_boundary_counterexample :
    readTokenFromCache
        (some ⟨"cachedtok", 100, "us-east-1", "https://d.awsapps.com/start"⟩)
        "https://d.awsapps.com/start" 100 = .ok "cachedtok" ∧
      ¬((100 : Int) < 100) := by
  constructor
  · rfl
  · omega

/-- C4 (amended): an artifact yields a usable token iff it parses, its
`StartURL` equals the requested one and `now ≤ ExpiresAt` (the boundary
instant is accepted); the resolver fails with the no-valid-token error when
every artifact fails one of those checks or carries an empty access token. -/
theorem readTokenFromCache_usable_iff :
    (∀ (artifact : Option SSOCacheToken) (url : String) (now : Int),
      (∃ tok, readTokenFromCache artifact url now = .ok tok) ↔
        ∃ t, artifact = some t ∧ t.startURL = url ∧ now ≤ t.expiresAt) ∧
    (∀ (arts : List (Option SSOCacheToken)) (url : String) (now : Int),
      (∀ t, some t ∈ arts → t.startURL = url → now ≤ t.expiresAt →
          t.accessToken = "") →
        getSSOAccessToken arts url now = .error "no valid SSO token found") := by
  constructor
  · intro artifact url now
    cases artifact with
    | none => simp [readTokenFromCache]
    | some t =>
      simp only [readTokenFromCache]
      by_cases h1 : t.startURL = url
      · by_cases h2 : now > t.expiresAt
        · simp [h1, h2]
        · simp [h1, h2]
          omega
      · simp [h1]
  · intro arts url now h
    induction arts with
    | nil => rfl
    | cons a rest ih =>
      have hrest := ih (fun t ht => h t (List.mem_cons_of_mem _ ht))
      cases a with
      | none => simpa [getSSOAccessToken, readTokenFromCache] using hrest
      | some t =>
        simp only [getSSOAccessToken, readTokenFromCache]
        by_cases h1 : t.startURL = url
        · by_cases h2 : now > t.expiresAt
          · simpa [h1, h2] using hrest
          · have hempty : t.accessToken = "" :=
              h t (List.mem_cons_self _ _) h1 (by omega)
            simpa [h1, h2, hempty] using hrest
        · simpa [h1] using hrest

/-- Witness for the amended C4 statement at concrete inputs. -/
theorem readTokenFromCache_usable_iff_witness :
    ((∃ tok, readTokenFromCache (some ⟨"tk", 50, "r", "https://u"⟩) "https://u" 49 = .ok tok) ↔
      ∃ t, (some ⟨"tk", 50, "r", "https://u"⟩ : Option SSOCacheToken) = some t ∧
        t.startURL = "https://u" ∧ (49 : Int) ≤ t.expiresAt) ∧
    getSSOAccessToken [some ⟨"tk", 50, "r", "https://other"⟩, none] "https://u" 49 =
      .error "no valid SSO token found" :=
  ⟨readTokenFromCache_usable_iff.1 _ _ _,
   readTokenFromCache_usable_iff.2 [some ⟨"tk", 50, "r", "https://other"⟩, none]
     "https://u" 49 (by
      intro t ht h1 _
      simp only [List.mem_cons, List.not_mem_nil, or_false] at ht
      rcases ht with h | h
      · rw [Option.some.injEq] at h
        subst h
        exact absurd h1 (by decide)
      · exact Option.noConfusion h)⟩

/-! ## C8: kubeconfig context invariant -/

theorem entraid_ne (x : String) : ("entraid-" ++ x) ≠ x := by
  intro h
  have hl := congrArg String.length h
  rw [String.length_append] at hl
  have h8 : ("entraid-" : String).length = 8 := rfl
  omega

/-- C8 (counterexample): after the fully successful switch `fallbackStore`
(provider-reported cluster name differs from the supplied one, the documented
fallback case), the written `entraid-c1` context references the cluster key
`c1`, but no cluster entry and no context with that key exists in the store —
the claimed invariant fails in the fallback case. -/
theorem kubeContext_invariant_counterexample :
    lookupA fallbackStore.contexts "entraid-c1" =
      some ⟨"c1", "azure-user"⟩ ∧
    lookupA fallbackStore.clusters "c1" = none ∧
    lookupA fallbackStore.contexts "c1" = none := by
  refine ⟨rfl, rfl, rfl⟩

/-- C8 (amended): after every successful switch the primary context — keyed
by the provider-reported Name — references the cluster entry and auth entry
upserted under the Arn, both of which exist in the store, and the
current-context pointer is set to the Name; the `entraid-<cluster>` context
references the existing `azure-user` credential, and its cluster reference is
exactly `azureClusterRef`: the cluster field of the prior context for the
supplied name, copied verbatim and unvalidated (it may dangle), falling back
to the raw supplied name when no such context exists or its field is empty.
The last two conjuncts exhibit the dangling copy: a prior context
`c1 ↦ ghost` yields `entraid-c1 ↦ ghost` with no cluster of that key. -/
theorem kubeContext_invariant_amended (cfg : KubeConfig) (ci : ClusterInfo)
    (cluster sid cid tid : String)
    (hne : ci.name ≠ "entraid-" ++ cluster) :
    (∃ e, lookupA (updateKubeconfig cfg ci cluster sid cid tid).clusters ci.arn = some e) ∧
    (∃ a, lookupA (updateKubeconfig cfg ci cluster sid cid tid).authInfos ci.arn = some a) ∧
    lookupA (updateKubeconfig cfg ci cluster sid cid tid).contexts ci.name =
      some ⟨ci.arn, ci.arn⟩ ∧
    (updateKubeconfig cfg ci cluster sid cid tid).currentContext = ci.name ∧
    lookupA (updateKubeconfig cfg ci cluster sid cid tid).contexts
        ("entraid-" ++ cluster) =
      some ⟨azureClusterRef (upsertA cfg.contexts ci.name ⟨ci.arn, ci.arn⟩)
        cluster, "azure-user"⟩ ∧
    (∃ a, lookupA (updateKubeconfig cfg ci cluster sid cid tid).authInfos
      "azure-user" = some a) ∧
    lookupA (updateKubeconfig ⟨[], [], [("c1", ⟨"ghost", "x"⟩)], ""⟩ fallbackCI
        "c1" sid cid tid).contexts "entraid-c1" =
      some ⟨"ghost", "azure-user"⟩ ∧
    lookupA (updateKubeconfig ⟨[], [], [("c1", ⟨"ghost", "x"⟩)], ""⟩ fallbackCI
        "c1" sid cid tid).clusters "ghost" = none := by
  unfold updateKubeconfig addAzureContext addAzureUser createOrUpdateKubeContext
  refine ⟨⟨_, lookupA_upsertA_self _ _ _⟩, ?_, ?_, ?_, ?_, ?_, ?_, ?_⟩
  · by_cases hau : ci.arn = "azure-user"
    · rw [hau]
      exact ⟨_, lookupA_upsertA_self _ _ _⟩
    · rw [lookupA_upsertA_ne _ _ _ _ hau]
      exact ⟨_, lookupA_upsertA_self _ _ _⟩
  · rw [lookupA_upsertA_ne _ _ _ _ hne]
    exact lookupA_upsertA_self _ _ _
  · trivial
  · exact lookupA_upsertA_self _ _ _
  · exact ⟨_, lookupA_upsertA_self _ _ _⟩
  · rfl
  · rfl

/-- Witness for the amended C8 statement at concrete inputs (including the
fallback-counterexample provider). -/
theorem kubeContext_invariant_amended_witness :
    let ci : ClusterInfo := ⟨"c1", "https://ep", "CA", "eu-central-1",
      "arn:aws:eks:c1", "aws", [], []⟩
    ci.name ≠ "entraid-" ++ "c1" ∧
    lookupA (updateKubeconfig emptyKubeConfig ci "c1" "s" "c" "t").contexts
        ("entraid-" ++ "c1") =
      some ⟨azureClusterRef (upsertA emptyKubeConfig.contexts ci.name
        ⟨ci.arn, ci.arn⟩) "c1", "azure-user"⟩ :=
  ⟨by decide,
   (kubeContext_invariant_amended emptyKubeConfig _ "c1" "s" "c" "t"
     (by decide)).2.2.2.2.1⟩

/-! ## C6: profile name synthesis -/

theorem toLowerChar_eq_space {c : Char} (h : toLowerChar c = ' ') : c = ' ' := by
  revert h
  unfold toLowerChar
  split <;> intro h <;> first | exact h | exact absurd h (by decide)

theorem toLowerChar_eq_dot {c : Char} (h : toLowerChar c = '.') : c = '.' := by
  revert h
  unfold toLowerChar
  split <;> intro h <;> first | exact h | exact absurd h (by decide)

/-- Replacing spaces/dots commutes with lower-casing (neither `' '` nor `'.'`
nor `'-'` is a letter). -/
theorem strToLower_rep_comm (s : String) :
    strToLower (replaceAllChar (replaceAllChar s ' ' '-') '.' '-') =
      replaceAllChar (replaceAllChar (strToLower s) ' ' '-') '.' '-' := by
  unfold strToLower replaceAllChar
  apply congrArg String.mk
  simp only [List.map_map]
  apply List.map_congr_left
  intro c _
  simp only [Function.comp_apply]
  by_cases h1 : c = ' '
  · subst h1; decide
  · by_cases h2 : c = '.'
    · subst h2; decide
    · have hs : toLowerChar c ≠ ' ' := fun h => h1 (toLowerChar_eq_space h)
      have hd : toLowerChar c ≠ '.' := fun h => h2 (toLowerChar_eq_dot h)
      rw [if_neg h1, if_neg h2, if_neg hs, if_neg hd]

/-- C6: the synthesized profile name is exactly the claim's transform —
identifier (AccountName, else AccountID) lower-cased with spaces and dots
replaced by `-`, role collapsed to `operator` / stripped of the `itfrun-`
organizational marker on the lower-cased role name — and it agrees with the
spec's two concrete examples. -/
theorem profileName_matches_spec :
    (∀ ar : AccountRole, profileName ar = profileNameSpec ar) ∧
    profileName ⟨"123456789012", "Test Account", "AdminRole", "t@e.com"⟩ =
      "test-account-adminrole" ∧
    profileName ⟨"987654321098", "Prod Account", "ReadOnlyRole", "p@e.com"⟩ =
      "prod-account-readonlyrole" := by
  refine ⟨?_, by decide, by decide⟩
  intro ar
  unfold profileName profileNameSpec cleanAccountIdentifier simplifyRoleName
  rw [strToLower_rep_comm]

/-! ## C5: partial-result enumeration -/

/-- Against a persistently failing roles client, the inner roles loop never
exits: the `continue` at generate_profiles.go:468 re-enters the same loop
with the paginator state unchanged, so `HasMorePages` keeps answering yes and
the same page is requested forever. -/
theorem rolesLoopGo_allError (client : Option String → Except String (Page String))
    (h : ∀ tok, ∃ e, client tok = .error e) :
    ∀ fuel s acc, hasMorePages s = true → rolesLoopGo client fuel s acc = none := by
  intro fuel
  induction fuel with
  | zero => intro s acc _; rfl
  | succ n ih =>
    intro s acc hm
    obtain ⟨e, he⟩ := h s.nextToken
    unfold rolesLoopGo
    simp only [hm, if_true, nextPage, he]
    exact ih s acc hm

/-- C5 (code_bug): with two accounts where the first one's role listing fails
persistently, the enumerator never returns — for every amount of fuel the
walk is still stuck retrying the first account's roles page, so the pairs of
the remaining account are never produced (the claim's partial-result policy);
by contrast, a failure of the accounts listing itself aborts with an error,
as the claim says. -/
theorem listAccountRoles_partial_result_code_bug :
    (∀ fuel, listAccountRoles stuckDir fuel = .ok none) ∧
    (∀ fuel, listAccountRoles acctFailDir (fuel + 1) =
      .error "failed to list accounts: network error") := by
  constructor
  · intro fuel
    have hclient : ∀ tok, ∃ e, stuckDir.rolesClient "111111111111" tok = .error e := by
      intro tok
      exact ⟨"access denied", by simp [stuckDir]⟩
    cases fuel with
    | zero => rfl
    | succ n =>
      have hroles := rolesLoopGo_allError _ hclient n ⟨true, none⟩ [] rfl
      unfold listAccountRoles accountsLoopGo accountRolesOfPage nextPage
      simp only [hasMorePages, Bool.true_or, if_true]
      rw [show stuckDir.accountsClient none =
        Except.ok ⟨[⟨"111111111111", "Acc1", "a@example.com"⟩,
          ⟨"222222222222", "Acc2", "b@example.com"⟩], none⟩ from rfl]
      simp only [List.foldl_cons, List.foldl_nil]
      rw [hroles]
  · intro fuel
    rfl

/-! ## C9: selection boundary without mutation -/

theorem selectCluster_none_input (c1 c2 : String) (rest : List String) (input : String)
    (h : atoi (trimSpace input) = none) :
    selectCluster (c1 :: c2 :: rest) input = none := by
  unfold selectCluster
  rw [h]

theorem selectCluster_some_input (c1 c2 : String) (rest : List String) (input : String)
    (k : Int) (h : atoi (trimSpace input) = some k) :
    selectCluster (c1 :: c2 :: rest) input =
      if k < 1 ∨ k > ((c1 :: c2 :: rest).length : Int) then none
      else (c1 :: c2 :: rest).get? (k - 1).toNat := by
  unfold selectCluster
  rw [h]

/-- C9: with at least two discovered clusters, a non-parsing input or a
1-based choice outside `1..n` ends the workflow with the kubeconfig store
untouched; input `"1"` selects the first listed cluster; a single discovered
cluster is selected automatically whatever the input stream holds. -/
theorem useCmd_selection_boundary :
    (∀ (store : KubeConfig) (provider : String → ClusterInfo)
        (cl : List String) (input sid cid tid : String),
      2 ≤ cl.length → atoi (trimSpace input) = none →
      useFlow store provider cl input sid cid tid = store) ∧
    (∀ (store : KubeConfig) (provider : String → ClusterInfo)
        (cl : List String) (input sid cid tid : String) (k : Int),
      2 ≤ cl.length → atoi (trimSpace input) = some k →
      (k < 1 ∨ k > (cl.length : Int)) →
      useFlow store provider cl input sid cid tid = store) ∧
    (∀ (store : KubeConfig) (provider : String → ClusterInfo)
        (c1 c2 : String) (rest : List String) (sid cid tid : String),
      useFlow store provider (c1 :: c2 :: rest) "1" sid cid tid =
        updateKubeconfig store (provider c1) c1 sid cid tid) ∧
    (∀ (store : KubeConfig) (provider : String → ClusterInfo)
        (c1 input sid cid tid : String),
      useFlow store provider [c1] input sid cid tid =
        updateKubeconfig store (provider c1) c1 sid cid tid) := by
  refine ⟨?_, ?_, ?_, ?_⟩
  · intro store provider cl input sid cid tid hlen hatoi
    match cl with
    | [] => simp at hlen
    | [c] => simp at hlen
    | c1 :: c2 :: rest =>
      unfold useFlow
      rw [selectCluster_none_input _ _ _ _ hatoi]
  · intro store provider cl input sid cid tid k hlen hatoi hk
    match cl with
    | [] => simp at hlen
    | [c] => simp at hlen
    | c1 :: c2 :: rest =>
      unfold useFlow
      rw [selectCluster_some_input _ _ _ _ _ hatoi, if_pos hk]
  · intro store provider c1 c2 rest sid cid tid
    unfold useFlow
    rw [selectCluster_some_input _ _ _ "1" 1 rfl, if_neg ?_]
    · rfl
    · push_neg
      refine ⟨by omega, ?_⟩
      have hl : ((c1 :: c2 :: rest).length : Int) = (rest.length : Int) + 2 := by
        simp [List.length_cons]
        ring
      omega
  · intro store provider c1 input sid cid tid
    rfl

/-- Witness for C9 at the spec's own concrete inputs: two clusters, inputs
`"abc"`, `"0"`, `"3"` abort without mutation, `"1"` selects the first; one
cluster auto-selects. -/
theorem useCmd_selection_boundary_witness :
    (2 ≤ (["c1", "c2"] : List String).length ∧ atoi (trimSpace "abc") = none ∧
      useFlow emptyKubeConfig witnessProvider ["c1", "c2"] "abc" "s" "c" "t" =
        emptyKubeConfig) ∧
    (atoi (trimSpace "0") = some 0 ∧
      useFlow emptyKubeConfig witnessProvider ["c1", "c2"] "0" "s" "c" "t" =
        emptyKubeConfig) ∧
    (atoi (trimSpace "3") = some 3 ∧
      useFlow emptyKubeConfig witnessProvider ["c1", "c2"] "3" "s" "c" "t" =
        emptyKubeConfig) ∧
    useFlow emptyKubeConfig witnessProvider ["c1", "c2"] "1" "s" "c" "t" =
      updateKubeconfig emptyKubeConfig (witnessProvider "c1") "c1" "s" "c" "t" ∧
    useFlow emptyKubeConfig witnessProvider ["solo"] "anything" "s" "c" "t" =
      updateKubeconfig emptyKubeConfig (witnessProvider "solo") "solo" "s" "c" "t" :=
  ⟨⟨by decide, rfl,
    useCmd_selection_boundary.1 emptyKubeConfig witnessProvider ["c1", "c2"]
      "abc" "s" "c" "t" (by decide) rfl⟩,
   ⟨rfl,
    useCmd_selection_boundary.2.1 emptyKubeConfig witnessProvider ["c1", "c2"]
      "0" "s" "c" "t" 0 (by decide) rfl (by omega)⟩,
   ⟨rfl,
    useCmd_selection_boundary.2.1 emptyKubeConfig witnessProvider ["c1", "c2"]
      "3" "s" "c" "t" 3 (by decide) rfl (by norm_num)⟩,
   useCmd_selection_boundary.2.2.1 emptyKubeConfig witnessProvider "c1" "c2" []
     "s" "c" "t",
   useCmd_selection_boundary.2.2.2 emptyKubeConfig witnessProvider "solo"
     "anything" "s" "c" "t"⟩

/-! ## C10: start-URL flag sanitization -/

theorem head?_dropWhile_false {α : Type} (p : α → Bool) (l : List α) (c : α)
    (h : (l.dropWhile p).head? = some c) : p c = false := by
  induction l with
  | nil => simp at h
  | cons a rest ih =>
    rw [List.dropWhile_cons] at h
    by_cases ha : p a = true
    · rw [if_pos ha] at h
      exact ih h
    · rw [if_neg ha] at h
      have hac : a = c := by simpa using h
      subst hac
      simpa using ha

/-- C10: the `--sso-start-url` flag is sanitized by stripping every trailing
`#`, `/` or `\` (generate_profiles.go:81, 288); the sanitized value never ends
in one of those characters, and every `sso_start_url` value written by the
flag branch's minimal config (lines 88-99) and by
`createDefaultSSOConfiguration` equals the sanitized flag value. -/
theorem sanitizeStartURL_props :
    (∀ flag : String, ∃ suffix : List Char,
      flag.data = (sanitizeStartURL flag).data ++ suffix ∧
        ∀ c ∈ suffix, c = '#' ∨ c = '/' ∨ c = '\\') ∧
    (∀ (flag : String) (c : Char), (sanitizeStartURL flag).data.getLast? = some c →
      c ≠ '#' ∧ c ≠ '/' ∧ c ≠ '\\') ∧
    (∀ flag r : String, ∀ s ∈ (flagBranchMinimalConfig flag r).sections, ∀ v,
      lookupA s.keys "sso_start_url" = some v → v = sanitizeStartURL flag) ∧
    (∀ flag r : String, ∀ out, createDefaultSSOConfiguration emptyIni flag r = .ok out →
      ∀ s ∈ out.sections, ∀ v, lookupA s.keys "sso_start_url" = some v →
        v = sanitizeStartURL flag) := by
  refine ⟨?_, ?_, ?_, ?_⟩
  · intro flag
    refine ⟨(flag.data.reverse.takeWhile
      (fun c => (['#', '/', '\\'] : List Char).contains c)).reverse, ?_, ?_⟩
    · have h := List.takeWhile_append_dropWhile
        (fun c => (['#', '/', '\\'] : List Char).contains c) flag.data.reverse
      have h2 := congrArg List.reverse h
      rw [List.reverse_append, List.reverse_reverse] at h2
      exact h2.symm
    · intro c hc
      have hp := List.mem_takeWhile_imp (List.mem_reverse.mp hc)
      simpa using hp
  · intro flag c h
    have hrev : ((flag.data.reverse.dropWhile
        (fun c => (['#', '/', '\\'] : List Char).contains c)).reverse).getLast? =
        some c := h
    rw [List.getLast?_reverse] at hrev
    have hpc := head?_dropWhile_false _ _ _ hrev
    simpa using hpc
  · intro flag r s hs v hv
    simp only [flagBranchMinimalConfig, List.mem_cons, List.not_mem_nil, or_false] at hs
    rcases hs with rfl | rfl | rfl
    · simp [lookupA] at hv
    · simp [lookupA] at hv
      exact hv.symm
    · simp [lookupA] at hv
      exact hv.symm
  · intro flag r out hout s hs v hv
    by_cases hempty : sanitizeStartURL flag = ""
    · unfold createDefaultSSOConfiguration at hout
      rw [if_pos hempty] at hout
      exact Except.noConfusion hout
    · have hcompute : createDefaultSSOConfiguration emptyIni flag r =
          .ok ⟨[⟨"DEFAULT", []⟩,
            ⟨"sso-session DEFAULT-SSO",
              [("sso_start_url", sanitizeStartURL flag), ("sso_region", r),
               ("sso_registration_scopes", "sso:account:access")]⟩,
            ⟨"profile DEFAULT-SSO",
              [("sso_start_url", sanitizeStartURL flag), ("sso_region", r),
               ("sso_role_name", "itfrun-operator"), ("region", r),
               ("output", "json")]⟩]⟩ := by
        unfold createDefaultSSOConfiguration
        rw [if_neg hempty]
        rfl
      rw [hcompute, Except.ok.injEq] at hout
      subst hout
      simp only [List.mem_cons, List.not_mem_nil, or_false] at hs
      rcases hs with rfl | rfl | rfl
      · simp [lookupA] at hv
      · simp [lookupA] at hv
        exact hv.symm
      · simp [lookupA] at hv
        exact hv.symm

/-- Witness for C10 on a concrete start URL ending in `#/`. -/
theorem sanitizeStartURL_props_witness :
    ((sanitizeStartURL "https://ex.awsapps.com/start#/").data.getLast? = some 't' ∧
      't' ≠ '#' ∧ 't' ≠ '/' ∧ 't' ≠ '\\') ∧
    (∃ suffix, ("https://ex.awsapps.com/start#/" : String).data =
      (sanitizeStartURL "https://ex.awsapps.com/start#/").data ++ suffix ∧
        ∀ c ∈ suffix, c = '#' ∨ c = '/' ∨ c = '\\') :=
  ⟨⟨by decide, sanitizeStartURL_props.2.1 "https://ex.awsapps.com/start#/" 't' (by decide)⟩,
   sanitizeStartURL_props.1 "https://ex.awsapps.com/start#/"⟩

/-! ## C2: atomic rewrite of the profile store -/

theorem applyOps_append (s : FsState) (l1 l2 : List FsOp) :
    applyOps s (l1 ++ l2) = applyOps (applyOps s l1) l2 :=
  List.foldl_append _ _ _ _

/-- Only the rename touches the target file. -/
theorem applyOps_target_of_no_rename (s : FsState) (ops : List FsOp)
    (h : FsOp.renameTempToTarget ∉ ops) : (applyOps s ops).target = s.target := by
  induction ops generalizing s with
  | nil => rfl
  | cons op rest ih =>
    simp only [List.mem_cons, not_or] at h
    have hstep : (applyOp s op).target = s.target := by
      cases op with
      | createTemp => rfl
      | writeTemp c => rfl
      | closeTemp => rfl
      | removeTemp => rfl
      | renameTempToTarget => exact absurd rfl h.1
    calc (applyOps (applyOp s op) rest).target
        = (applyOp s op).target := ih _ h.2
      _ = s.target := hstep

theorem applyOps_writes (t : Option String) (acc : List Char)
    (lines : List (List Char)) :
    applyOps ⟨t, some acc⟩ (lines.map (fun l => FsOp.writeTemp (l ++ ['\n']))) =
      ⟨t, some (acc ++ joinNl lines)⟩ := by
  induction lines generalizing acc with
  | nil => simp [applyOps, joinNl]
  | cons l ls ih =>
    show applyOps ⟨t, some (acc ++ (l ++ ['\n']))⟩
      (ls.map (fun l => FsOp.writeTemp (l ++ ['\n']))) = _
    rw [ih]
    simp [joinNl]

theorem applyOps_pre (cfg : IniFile) (orig : Option String) (temp0 : Option (List Char)) :
    applyOps ⟨orig, temp0⟩ (writePreOps cfg) = ⟨orig, some (joinNl (fileLines cfg))⟩ := by
  unfold writePreOps
  show applyOps ⟨orig, some []⟩
    ((fileLines cfg).map (fun l => FsOp.writeTemp (l ++ ['\n'])) ++ [FsOp.closeTemp]) = _
  rw [applyOps_append, applyOps_writes]
  rfl

theorem rename_not_mem_pre (cfg : IniFile) :
    FsOp.renameTempToTarget ∉ writePreOps cfg := by
  intro h
  simp only [writePreOps, List.mem_cons, List.mem_append, List.mem_map,
    List.mem_singleton, List.not_mem_nil, or_false] at h
  rcases h with h | ⟨a, _, h⟩ | h <;> exact FsOp.noConfusion h

theorem writeConfigOps_eq (cfg : IniFile) :
    writeConfigOps cfg = writePreOps cfg ++
      FsOp.renameTempToTarget :: [FsOp.removeTemp, FsOp.closeTemp] := by
  simp [writeConfigOps, writePreOps]

/-- C2: for every prefix of the write trace (a crash point), the target store
is either byte-for-byte the original content or byte-for-byte the complete
new content; before the rename it is exactly the original, and the full trace
ends with the target holding the complete rendered store.  (That the rename
is an atomic same-filesystem replace rests on the temp file being created in
`filepath.Dir(configPath)` at generate_profiles.go:598.) -/
theorem writeConfigWithoutEscaping_atomic (cfg : IniFile) (orig : Option String)
    (temp0 : Option (List Char)) (k : Nat) :
    (FsOp.renameTempToTarget ∉ (writeConfigOps cfg).take k →
      (applyOps ⟨orig, temp0⟩ ((writeConfigOps cfg).take k)).target = orig) ∧
    ((applyOps ⟨orig, temp0⟩ ((writeConfigOps cfg).take k)).target = orig ∨
      (applyOps ⟨orig, temp0⟩ ((writeConfigOps cfg).take k)).target = some (render cfg)) ∧
    (applyOps ⟨orig, temp0⟩ (writeConfigOps cfg)).target = some (render cfg) := by
  refine ⟨fun h => applyOps_target_of_no_rename _ _ h, ?_, ?_⟩
  · by_cases hmem : FsOp.renameTempToTarget ∈ (writeConfigOps cfg).take k
    · right
      have hk : (writePreOps cfg).length < k := by
        by_contra hle
        push_neg at hle
        rw [writeConfigOps_eq, List.take_append_eq_append_take,
          Nat.sub_eq_zero_of_le hle, List.take_zero, List.append_nil] at hmem
        exact rename_not_mem_pre cfg ((List.take_sublist _ _).mem hmem)
      obtain ⟨n, hn⟩ : ∃ n, k - (writePreOps cfg).length = n + 1 :=
        ⟨k - (writePreOps cfg).length - 1, by omega⟩
      rw [writeConfigOps_eq, List.take_append_eq_append_take,
        List.take_of_length_le (by omega), hn, List.take_succ_cons,
        applyOps_append, applyOps_pre]
      have hpost : FsOp.renameTempToTarget ∉
          List.take n [FsOp.removeTemp, FsOp.closeTemp] := by
        intro hmem'
        have := (List.take_sublist n [FsOp.removeTemp, FsOp.closeTemp]).mem hmem'
        simp only [List.mem_cons, List.not_mem_nil, or_false] at this
        rcases this with h | h <;> exact FsOp.noConfusion h
      show (applyOps (applyOp _ FsOp.renameTempToTarget) _).target = _
      rw [applyOps_target_of_no_rename _ _ hpost]
      rfl
    · exact Or.inl (applyOps_target_of_no_rename _ _ hmem)
  · rw [writeConfigOps_eq, applyOps_append, applyOps_pre]
    rfl

/-- Witness for C2: a one-profile store, a crash point inside the writes, and
the full trace. -/
theorem writeConfigWithoutEscaping_atomic_witness :
    (FsOp.renameTempToTarget ∉
        (writeConfigOps ⟨[⟨"DEFAULT", []⟩, ⟨"profile t", [("k", "v")]⟩]⟩).take 2 ∧
      (applyOps ⟨some "old", none⟩
        ((writeConfigOps ⟨[⟨"DEFAULT", []⟩, ⟨"profile t", [("k", "v")]⟩]⟩).take 2)).target =
        some "old") ∧
    (applyOps ⟨some "old", none⟩
      (writeConfigOps ⟨[⟨"DEFAULT", []⟩, ⟨"profile t", [("k", "v")]⟩]⟩)).target =
      some (render ⟨[⟨"DEFAULT", []⟩, ⟨"profile t", [("k", "v")]⟩]⟩) :=
  ⟨⟨by decide,
    (writeConfigWithoutEscaping_atomic ⟨[⟨"DEFAULT", []⟩, ⟨"profile t", [("k", "v")]⟩]⟩
      (some "old") none 2).1 (by decide)⟩,
   (writeConfigWithoutEscaping_atomic ⟨[⟨"DEFAULT", []⟩, ⟨"profile t", [("k", "v")]⟩]⟩
      (some "old") none 2).2.2⟩

/-! ## C7: deterministic enumeration order -/

theorem arLtK_antisymm : ∀ a b, arLtK a b → arLtK b a → a = b := by
  rintro a b ⟨hab, hkey⟩ ⟨hba, _⟩
  refine absurd ?_ hkey
  unfold arKey
  unfold arLe strLt at hab hba
  rcases hab with h1 | ⟨e1, r1⟩
  · rcases hba with h2 | ⟨e2, r2⟩
    · have htr := strLtB_trans _ _ _ h1 h2
      rw [strLtB_irrefl] at htr
      exact Bool.noConfusion htr
    · rw [e2] at h1
      rw [strLtB_irrefl] at h1
      exact Bool.noConfusion h1
  · rcases hba with h2 | ⟨e2, r2⟩
    · rw [e1] at h2
      rw [strLtB_irrefl] at h2
      exact Bool.noConfusion h2
    · rw [e1, strLe_antisymm r1 r2]

/-- C7: the enumerator's sort returns a permutation of the collected pairs,
ascending by `(AccountName, RoleName)` (ties on AccountName decided by
RoleName); when the `(AccountName, RoleName)` keys are distinct the result is
the same whatever order the directory returned the pairs in; and the spec's
example sorts `Prod Account` before `Test Account`. -/
theorem listAccountRoles_sorted_deterministic :
    (∀ l : List AccountRole, (sortAccountRoles l).Perm l) ∧
    (∀ l : List AccountRole, (sortAccountRoles l).Sorted arLe) ∧
    (∀ l₁ l₂ : List AccountRole, l₁.Perm l₂ → (l₁.map arKey).Nodup →
      sortAccountRoles l₁ = sortAccountRoles l₂) ∧
    sortAccountRoles [⟨"111111111111", "Test Account", "AdminRole", "t@e.com"⟩,
        ⟨"222222222222", "Prod Account", "ReadOnlyRole", "p@e.com"⟩] =
      [⟨"222222222222", "Prod Account", "ReadOnlyRole", "p@e.com"⟩,
       ⟨"111111111111", "Test Account", "AdminRole", "t@e.com"⟩] := by
  haveI : IsTotal AccountRole arLe := ⟨arLe_total⟩
  haveI : IsTrans AccountRole arLe := ⟨arLe_trans⟩
  have hperm : ∀ l : List AccountRole, (sortAccountRoles l).Perm l :=
    fun l => List.perm_insertionSort arLe l
  have hsorted : ∀ l : List AccountRole, (sortAccountRoles l).Sorted arLe :=
    fun l => List.sorted_insertionSort arLe l
  refine ⟨hperm, hsorted, ?_, by decide⟩
  intro l₁ l₂ hp hnd
  have hnd₂ : (l₂.map arKey).Nodup := ((hp.map arKey).nodup_iff).mp hnd
  have hsortedK : ∀ l : List AccountRole, (l.map arKey).Nodup →
      (sortAccountRoles l).Sorted arLtK := by
    intro l h
    have h2 : ((sortAccountRoles l).map arKey).Nodup :=
      (((hperm l).map arKey).nodup_iff).mpr h
    have h3 : (sortAccountRoles l).Pairwise (fun a b => arKey a ≠ arKey b) :=
      List.pairwise_map.mp h2
    exact (hsorted l).and h3
  haveI : IsAntisymm AccountRole arLtK := ⟨arLtK_antisymm⟩
  exact List.eq_of_perm_of_sorted ((hperm l₁).trans (hp.trans (hperm l₂).symm))
    (hsortedK l₁ hnd) (hsortedK l₂ hnd₂)

/-- Witness for C7: two pair lists in opposite directory order sort to the
same output. -/
theorem listAccountRoles_sorted_deterministic_witness :
    ([⟨"1", "B", "r1", "e"⟩, ⟨"2", "A", "r2", "e"⟩] : List AccountRole).Perm
        [⟨"2", "A", "r2", "e"⟩, ⟨"1", "B", "r1", "e"⟩] ∧
    (([⟨"1", "B", "r1", "e"⟩, ⟨"2", "A", "r2", "e"⟩] : List AccountRole).map arKey).Nodup ∧
    sortAccountRoles [⟨"1", "B", "r1", "e"⟩, ⟨"2", "A", "r2", "e"⟩] =
      sortAccountRoles [⟨"2", "A", "r2", "e"⟩, ⟨"1", "B", "r1", "e"⟩] :=
  ⟨List.Perm.swap _ _ _, by decide,
   listAccountRoles_sorted_deterministic.2.2.1 _ _ (List.Perm.swap _ _ _) (by decide)⟩

/-! ## Trimming lemmas -/

theorem trimR_cons (c : Char) (l : List Char) :
    trimR (c :: l) = match trimR l with
      | [] => if isWs c then [] else [c]
      | r => c :: r := rfl

theorem trimR_length : ∀ l : List Char, (trimR l).length ≤ l.length := by
  intro l
  induction l with
  | nil => simp [trimR]
  | cons c r ih =>
    rw [trimR_cons]
    cases htr : trimR r with
    | nil =>
      by_cases hc : isWs c
      · simp [hc]
      · simp [hc]
    | cons x xs =>
      rw [htr] at ih
      simpa using ih

theorem trimR_head : ∀ l : List Char, trimR l = [] ∨ (trimR l).head? = l.head? := by
  intro l
  cases l with
  | nil => exact Or.inl rfl
  | cons c r =>
    rw [trimR_cons]
    cases htr : trimR r with
    | nil =>
      by_cases hc : isWs c
      · simp [hc]
      · simp [hc]
    | cons x xs => simp

theorem trimR_sublist : ∀ l : List Char, (trimR l).Sublist l := by
  intro l
  induction l with
  | nil => simp [trimR]
  | cons c r ih =>
    rw [trimR_cons]
    cases htr : trimR r with
    | nil =>
      by_cases hc : isWs c
      · simp [hc]
      · simp [hc]
    | cons x xs =>
      rw [htr] at ih
      exact ih.cons₂ c

theorem trimR_idem : ∀ l : List Char, trimR (trimR l) = trimR l := by
  intro l
  induction l with
  | nil => rfl
  | cons c r ih =>
    rw [trimR_cons]
    cases htr : trimR r with
    | nil =>
      by_cases hc : isWs c
      · simp [hc, trimR]
      · simp [hc, trimR_cons, trimR]
    | cons x xs =>
      rw [htr] at ih
      rw [trimR_cons, ih]

theorem trimR_append_fix (a b : List Char) (hb : b ≠ []) (hfix : trimR b = b) :
    trimR (a ++ b) = a ++ b := by
  induction a with
  | nil => simpa using hfix
  | cons x a' ih =>
    rw [List.cons_append, trimR_cons, ih]
    cases hab : a' ++ b with
    | nil => exact absurd (List.append_eq_nil.mp hab).2 hb
    | cons y ys => simp

theorem trimR_append_ws (c : Char) (hc : isWs c = true) :
    ∀ l : List Char, trimR (l ++ [c]) = trimR l := by
  intro l
  induction l with
  | nil => simp [trimR, hc]
  | cons a l' ih =>
    rw [List.cons_append, trimR_cons, ih, ← trimR_cons]

theorem trimL_cons_not {c : Char} (hc : isWs c = false) (l : List Char) :
    trimL (c :: l) = c :: l := by
  simp [trimL, List.dropWhile_cons, hc]

theorem trimL_cons_ws {c : Char} (hc : isWs c = true) (l : List Char) :
    trimL (c :: l) = trimL l := by
  simp [trimL, List.dropWhile_cons, hc]

theorem trimL_fix_head {l : List Char} {c : Char} {r : List Char}
    (hfix : trimL l = l) (hl : l = c :: r) : isWs c = false := by
  subst hl
  by_contra hc
  have hc' : isWs c = true := by
    cases hx : isWs c
    · exact absurd hx hc
    · rfl
  rw [trimL_cons_ws hc'] at hfix
  have := congrArg List.length hfix
  have hle := List.Sublist.length_le (List.dropWhile_sublist (l := r) isWs)
  simp [trimL] at this
  omega

theorem trimmed_parts {l : List Char} (h : trimLst l = l) :
    trimL l = l ∧ trimR l = l := by
  have h1 : (trimL l).length ≤ l.length :=
    List.Sublist.length_le (List.dropWhile_sublist isWs)
  have h2 : (trimR (trimL l)).length ≤ (trimL l).length := trimR_length _
  have h3 : (trimLst l).length = l.length := by rw [h]
  have h4 : trimL l = l :=
    (List.dropWhile_sublist isWs).eq_of_length (by
      unfold trimLst at h3
      unfold trimL at h1 h2 h3
      omega)
  refine ⟨h4, ?_⟩
  unfold trimLst at h
  rw [h4] at h
  exact h

theorem trimL_append_fix {a : List Char} (b : List Char) (ha : a ≠ [])
    (hfix : trimL a = a) : trimL (a ++ b) = a ++ b := by
  cases a with
  | nil => exact absurd rfl ha
  | cons c a' =>
    have hc := trimL_fix_head hfix rfl
    rw [List.cons_append, trimL_cons_not hc]

theorem trimLst_idem (l : List Char) : trimLst (trimLst l) = trimLst l := by
  unfold trimLst
  cases htl : trimR (trimL l) with
  | nil => rfl
  | cons c r =>
    have hhead : isWs c = false := by
      rcases trimR_head (trimL l) with h | h
      · rw [h] at htl
        exact absurd htl (by simp)
      · rw [htl] at h
        have : (trimL l).head? = some c := h.symm
        exact head?_dropWhile_false isWs l c this
    rw [show trimL (c :: r) = c :: r from trimL_cons_not hhead r, ← htl, trimR_idem]

theorem trimLst_head_not_ws {l : List Char} {c : Char} {r : List Char}
    (h : trimLst l = c :: r) : isWs c = false := by
  unfold trimLst at h
  rcases trimR_head (trimL l) with h' | h'
  · rw [h'] at h
    exact absurd h (by simp)
  · rw [h] at h'
    exact head?_dropWhile_false isWs l c h'.symm

theorem trimLst_sublist (l : List Char) : (trimLst l).Sublist l :=
  (trimR_sublist (trimL l)).trans (List.dropWhile_sublist isWs)

/-! ## takeWhile/dropWhile over concatenations -/

theorem dropWhile_append_all {α : Type} {p : α → Bool} {a : List α} (b : List α)
    (h : ∀ x ∈ a, p x = true) : (a ++ b).dropWhile p = b.dropWhile p := by
  induction a with
  | nil => rfl
  | cons x a' ih =>
    rw [List.cons_append, List.dropWhile_cons, if_pos (h x (List.mem_cons_self _ _))]
    exact ih (fun x hx => h x (List.mem_cons_of_mem _ hx))

theorem takeWhile_append_all {α : Type} {p : α → Bool} {a : List α} (b : List α)
    (h : ∀ x ∈ a, p x = true) : (a ++ b).takeWhile p = a ++ b.takeWhile p := by
  induction a with
  | nil => rfl
  | cons x a' ih =>
    rw [List.cons_append, List.takeWhile_cons, if_pos (h x (List.mem_cons_self _ _)),
      ih (fun x hx => h x (List.mem_cons_of_mem _ hx)), List.cons_append]

/-! ## Line splitting -/

theorem splitNl_append_line (l : List Char) (rest : List Char) (h : '\n' ∉ l) :
    splitNl (l ++ '\n' :: rest) = l :: splitNl rest := by
  induction l with
  | nil => simp [splitNl]
  | cons c l' ih =>
    simp only [List.mem_cons, not_or] at h
    rw [List.cons_append]
    show (if c = '\n' then [] :: splitNl (l' ++ '\n' :: rest)
      else match splitNl (l' ++ '\n' :: rest) with
        | [] => [[c]]
        | l :: ls => (c :: l) :: ls) = _
    rw [if_neg (fun hc => h.1 hc.symm), ih h.2]

theorem splitNl_joinNl (ls : List (List Char)) (h : ∀ l ∈ ls, '\n' ∉ l) :
    splitNl (joinNl ls) = ls ++ [[]] := by
  induction ls with
  | nil => rfl
  | cons l ls' ih =>
    have : joinNl (l :: ls') = l ++ '\n' :: joinNl ls' := by
      simp [joinNl]
    rw [this, splitNl_append_line _ _ (h l (List.mem_cons_self _ _)),
      ih (fun x hx => h x (List.mem_cons_of_mem _ hx)), List.cons_append]

theorem mem_splitNl_no_nl : ∀ (s : List Char) (l : List Char),
    l ∈ splitNl s → '\n' ∉ l := by
  intro s
  induction s with
  | nil =>
    intro l hl
    simp only [splitNl, List.mem_singleton] at hl
    subst hl
    simp
  | cons c rest ih =>
    intro l hl
    unfold splitNl at hl
    by_cases hc : c = '\n'
    · rw [if_pos hc] at hl
      rcases List.mem_cons.mp hl with h | h
      · subst h; simp
      · exact ih l h
    · rw [if_neg hc] at hl
      cases hsp : splitNl rest with
      | nil =>
        rw [hsp] at hl
        simp only [List.mem_singleton] at hl
        subst hl
        simp only [List.mem_singleton]
        exact fun h => hc h.symm
      | cons x xs =>
        rw [hsp] at hl
        rcases List.mem_cons.mp hl with h | h
        · subst h
          intro hmem
          rcases List.mem_cons.mp hmem with h | h
          · exact hc h.symm
          · exact ih x (by rw [hsp]; exact List.mem_cons_self _ _) h
        · exact ih l (by rw [hsp]; exact List.mem_cons_of_mem _ h)

/-! ## Parsing the rendered lines -/

theorem parseLine_blank (st : PState) : parseLine (some st) [] = some st := rfl

theorem parseHeaderName_bracketed (n : String) :
    parseHeaderName (n.data ++ [']']) = some n := by
  unfold parseHeaderName
  rw [show (n.data ++ [']']).reverse = ']' :: n.data.reverse from by
    rw [List.reverse_append]; rfl]
  rw [List.dropWhile_cons, if_neg (by decide)]
  show some (⟨n.data.reverse.reverse⟩ : String) = some n
  rw [List.reverse_reverse]

theorem parseLine_header (st : PState) (n : String) :
    parseLine (some st) (headerLine n) = some ⟨addSec st.secs n, n⟩ := by
  have ht : trimLst ('[' :: (n.data ++ [']'])) = '[' :: (n.data ++ [']']) := by
    unfold trimLst
    rw [trimL_cons_not (by decide),
      show ('[' :: (n.data ++ [']'])) = ('[' :: n.data) ++ [']'] from by simp]
    exact trimR_append_fix _ _ (by simp) (by decide)
  show parseLineCore st (trimLst (headerLine n)) = _
  unfold headerLine
  rw [ht]
  show (if ('[' : Char) = '#' ∨ ('[' : Char) = ';' then some st
    else if ('[' : Char) = '[' then
      match parseHeaderName (n.data ++ [']']) with
      | none => none
      | some n' => some ⟨addSec st.secs n', n'⟩
    else
      match parseKVLine ('[' :: (n.data ++ [']'])) with
      | none => none
      | some (k, v) => some ⟨addKeyTo st.secs st.cur k v, st.cur⟩) = _
  rw [if_neg (by decide), if_pos rfl, parseHeaderName_bracketed]

theorem parseLineCore_kv (st : PState) (c : Char) (body : List Char)
    (h1 : ¬(c = '#' ∨ c = ';')) (h2 : c ≠ '[') :
    parseLineCore st (c :: body) =
      match parseKVLine (c :: body) with
      | none => none
      | some (k, v) => some ⟨addKeyTo st.secs st.cur k v, st.cur⟩ := by
  show (if c = '#' ∨ c = ';' then some st
    else if c = '[' then
      match parseHeaderName body with
      | none => none
      | some n => some ⟨addSec st.secs n, n⟩
    else
      match parseKVLine (c :: body) with
      | none => none
      | some (k, v) => some ⟨addKeyTo st.secs st.cur k v, st.cur⟩) = _
  rw [if_neg h1, if_neg h2]

/-- The characters of a well-formed key all pass the delimiter test. -/
theorem keyOK_nonDelim {k : String} (hk : KeyOK k) :
    ∀ x ∈ k.data, nonDelim x = true := by
  intro x hx
  have h1 : x ≠ '=' := fun h => hk.2.2.1 (h ▸ hx)
  have h2 : x ≠ ':' := fun h => hk.2.2.2.1 (h ▸ hx)
  unfold nonDelim
  simp [h1, h2]

/-- Trimming the tail after the delimiter recovers the written value. -/
theorem trim_after_eq (v : String) (hv : ValOK v) :
    trimLst (' ' :: v.data) = v.data := by
  obtain ⟨hvnl, hvtr⟩ := hv
  unfold trimLst
  rw [trimL_cons_ws (by decide), (trimmed_parts hvtr).1, (trimmed_parts hvtr).2]

/-- Trimming the key side (`k` followed by the space before the delimiter)
recovers the written key. -/
theorem trim_key_side (k : String) (hktr : trimLst k.data = k.data) (hkne : k.data ≠ []) :
    trimLst (k.data ++ [' ']) = k.data := by
  unfold trimLst
  rw [trimL_append_fix [' '] hkne (trimmed_parts hktr).1, trimR_append_ws ' ' (by decide),
    (trimmed_parts hktr).2]

/-- A plain value is returned unchanged by go-ini's `readValue` when read
back from the written `= `-separated form. -/
theorem readValue_plain (v : String) (hv : ValPlain v) :
    readValue (' ' :: v.data) = some v.data := by
  obtain ⟨⟨hvnl, hvtr⟩, hhash, hsemi, hbq, hdqh, hsq, hdq, hbs⟩ := hv
  show readValueCore (trimL (' ' :: v.data)) = some v.data
  rw [trimL_cons_ws (by decide), (trimmed_parts hvtr).1]
  cases hv0 : v.data with
  | nil => rfl
  | cons c rest =>
    rw [hv0] at hvtr hhash hsemi hbq hsq hdq
    have hc : ¬(c = '`') := by
      intro he
      exact hbq (by rw [List.head?_cons, he])
    show (if c = '`' then readBacktick rest
        else some (unquoteVal (cutInlineComment (trimR (c :: rest))))) =
      some (c :: rest)
    rw [if_neg hc, (trimmed_parts hvtr).2]
    have hcut : cutInlineComment (c :: rest) = c :: rest := by
      unfold cutInlineComment
      have hany : (c :: rest).any isInlineCmt = false := by
        rw [List.any_eq_false]
        intro x hx hcmt
        rcases (of_decide_eq_true hcmt : x = '#' ∨ x = ';') with he | he
        · rw [he] at hx
          exact hhash hx
        · rw [he] at hx
          exact hsemi hx
      have hcond : ¬((c :: rest).any isInlineCmt = true) := by
        rw [hany]
        decide
      rw [if_neg hcond]
    rw [hcut]
    have hunq : unquoteVal (c :: rest) = c :: rest := by
      unfold unquoteVal
      have hcond : ¬((hasSurroundedQuote (c :: rest) '\'' ||
          hasSurroundedQuote (c :: rest) '"') = true) := by
        rw [hsq, hdq]
        decide
      rw [if_neg hcond]
    rw [hunq]

theorem parseKVLine_written (k v : String) (hk : KeyOK k) (hv : ValPlain v) :
    parseKVLine (trimLst (kvLine (k, v))) = some (k, v) ∧
    ∃ c rest, trimLst (kvLine (k, v)) = c :: rest ∧
      ¬(c = '#' ∨ c = ';') ∧ c ≠ '[' := by
  have hknd := keyOK_nonDelim hk
  obtain ⟨hknl, hktr, hkeq, hkcolon, hkhead⟩ := hk
  have hvnl := hv.1.1
  have hvtr := hv.1.2
  unfold kvLine
  by_cases hk0 : k.data = []
  · have hkeq0 : k = "" := String.ext hk0
    by_cases hv0 : v.data = []
    · have hveq0 : v = "" := String.ext hv0
      subst hkeq0
      subst hveq0
      exact ⟨by decide, '=', [], by decide, by decide, by decide⟩
    · have ht : trimLst (k.data ++ ' ' :: '=' :: ' ' :: v.data) =
          '=' :: ' ' :: v.data := by
        rw [hk0, List.nil_append]
        unfold trimLst
        rw [trimL_cons_ws (by decide), trimL_cons_not (by decide),
          show ('=' :: ' ' :: v.data) = ['=', ' '] ++ v.data from rfl]
        exact trimR_append_fix _ _ hv0 (trimmed_parts hvtr).2
      rw [ht]
      refine ⟨?_, '=', ' ' :: v.data, rfl, by decide, by decide⟩
      unfold parseKVLine
      rw [List.dropWhile_cons, if_neg (by decide), List.takeWhile_cons,
        if_neg (by decide)]
      show (match readValue (' ' :: v.data) with
        | none => none
        | some vd => some ((⟨trimLst []⟩ : String), (⟨vd⟩ : String))) = _
      rw [readValue_plain v hv]
      show some ((⟨trimLst []⟩ : String), (⟨v.data⟩ : String)) = _
      rw [show (⟨trimLst []⟩ : String) = "" from rfl, hkeq0]
  · obtain ⟨kc, kr, hkd⟩ := List.exists_cons_of_ne_nil hk0
    have hhd := hkhead kc (by rw [hkd]; rfl)
    have hc1 : ¬(kc = '#' ∨ kc = ';') := fun h => h.elim hhd.2.1 hhd.2.2
    by_cases hv0 : v.data = []
    · have hveq0 : v = "" := String.ext hv0
      have ht : trimLst (k.data ++ ' ' :: '=' :: ' ' :: v.data) =
          k.data ++ [' ', '='] := by
        rw [hv0]
        unfold trimLst
        rw [trimL_append_fix _ hk0 (trimmed_parts hktr).1]
        rw [show (k.data ++ [' ', '=', ' ']) = (k.data ++ [' ', '=']) ++ [' '] from by
          simp]
        rw [trimR_append_ws ' ' (by decide)]
        rw [show (k.data ++ [' ', '=']) = (k.data ++ [' ']) ++ ['='] from by simp]
        rw [trimR_append_fix _ _ (by simp) (by decide)]
      rw [ht]
      refine ⟨?_, kc, kr ++ [' ', '='], by rw [hkd, List.cons_append], hc1, hhd.1⟩
      unfold parseKVLine
      rw [dropWhile_append_all _ hknd, takeWhile_append_all _ hknd]
      rw [List.dropWhile_cons, if_pos (by decide), List.dropWhile_cons,
        if_neg (by decide), List.takeWhile_cons, if_pos (by decide),
        List.takeWhile_cons, if_neg (by decide)]
      show (match readValue ([] : List Char) with
        | none => none
        | some vd => some ((⟨trimLst (k.data ++ [' '])⟩ : String),
            (⟨vd⟩ : String))) = _
      rw [show readValue ([] : List Char) = some [] from rfl]
      show some ((⟨trimLst (k.data ++ [' '])⟩ : String),
        (⟨([] : List Char)⟩ : String)) = _
      rw [trim_key_side k hktr hk0]
      rw [show (⟨([] : List Char)⟩ : String) = "" from rfl, hveq0]
    · have ht : trimLst (k.data ++ ' ' :: '=' :: ' ' :: v.data) =
          k.data ++ ' ' :: '=' :: ' ' :: v.data := by
        unfold trimLst
        rw [trimL_append_fix _ hk0 (trimmed_parts hktr).1]
        rw [show (k.data ++ ' ' :: '=' :: ' ' :: v.data) =
          (k.data ++ [' ', '=', ' ']) ++ v.data from by simp]
        rw [trimR_append_fix _ _ hv0 (trimmed_parts hvtr).2]
      rw [ht]
      refine ⟨?_, kc, kr ++ ' ' :: '=' :: ' ' :: v.data,
        by rw [hkd, List.cons_append], hc1, hhd.1⟩
      unfold parseKVLine
      rw [dropWhile_append_all _ hknd, takeWhile_append_all _ hknd]
      rw [List.dropWhile_cons, if_pos (by decide), List.dropWhile_cons,
        if_neg (by decide), List.takeWhile_cons, if_pos (by decide),
        List.takeWhile_cons, if_neg (by decide)]
      show (match readValue (' ' :: v.data) with
        | none => none
        | some vd => some ((⟨trimLst (k.data ++ [' '])⟩ : String),
            (⟨vd⟩ : String))) = _
      rw [readValue_plain v hv]
      show some ((⟨trimLst (k.data ++ [' '])⟩ : String),
        (⟨v.data⟩ : String)) = _
      rw [trim_key_side k hktr hk0]

theorem parseLine_kv (st : PState) (k v : String) (hk : KeyOK k) (hv : ValPlain v) :
    parseLine (some st) (kvLine (k, v)) =
      some ⟨addKeyTo st.secs st.cur k v, st.cur⟩ := by
  obtain ⟨hparse, c, rest, ht, hc1, hc2⟩ := parseKVLine_written k v hk hv
  show parseLineCore st (trimLst (kvLine (k, v))) = _
  rw [ht]
  rw [parseLineCore_kv st c rest hc1 hc2, ← ht, hparse]

/-! ## Folding rendered lines through the parser -/

theorem upsertA_of_not_mem {α : Type} {m : List (String × α)} {k : String} (v : α)
    (h : ∀ q ∈ m, q.1 ≠ k) : upsertA m k v = m ++ [(k, v)] := by
  induction m with
  | nil => rfl
  | cons p rest ih =>
    rw [show upsertA (p :: rest) k v = p :: upsertA rest k v from by
      simp [upsertA, h p (List.mem_cons_self _ _)]]
    rw [ih (fun q hq => h q (List.mem_cons_of_mem _ hq)), List.cons_append]

theorem upsert_fold_append {α : Type} (ks : List (String × α)) (acc : List (String × α))
    (hdis : ∀ kv ∈ ks, ∀ q ∈ acc, q.1 ≠ kv.1) (hnd : (ks.map Prod.fst).Nodup) :
    ks.foldl (fun a kv => upsertA a kv.1 kv.2) acc = acc ++ ks := by
  induction ks generalizing acc with
  | nil => simp
  | cons kv ks' ih =>
    simp only [List.map_cons, List.nodup_cons] at hnd
    rw [List.foldl_cons,
      upsertA_of_not_mem kv.2 (fun q hq => hdis kv (List.mem_cons_self _ _) q hq)]
    rw [ih (acc ++ [(kv.1, kv.2)]) ?_ hnd.2]
    · simp
    · intro kv' hkv' q hq
      rcases List.mem_append.mp hq with h | h
      · exact hdis kv' (List.mem_cons_of_mem _ hkv') q h
      · rw [List.mem_singleton] at h
        subst h
        intro hq1
        exact hnd.1 (hq1 ▸ List.mem_map_of_mem Prod.fst hkv')

theorem buildKeys_eq_self (ks : List (String × String))
    (hnd : (ks.map Prod.fst).Nodup) : buildKeys ks = ks := by
  unfold buildKeys
  simpa using upsert_fold_append ks [] (by simp) hnd

theorem addKeyTo_append_target (pre : List IniSection) (n : String)
    (acc : List (String × String)) (k v : String)
    (hpre : ∀ s ∈ pre, s.name ≠ n) :
    addKeyTo (pre ++ [⟨n, acc⟩]) n k v = pre ++ [⟨n, upsertA acc k v⟩] := by
  unfold addKeyTo
  rw [List.map_append]
  congr 1
  · calc pre.map (updSec n k v)
        = pre.map id := List.map_congr_left (fun s hs => by
          unfold updSec; rw [if_neg (hpre s hs)]; rfl)
      _ = pre := List.map_id pre
  · simp [updSec]

theorem addKeyTo_fold (ks : List (String × String)) (pre : List IniSection)
    (n : String) (acc : List (String × String))
    (hpre : ∀ s ∈ pre, s.name ≠ n) :
    ks.foldl (fun ss kv => addKeyTo ss n kv.1 kv.2) (pre ++ [⟨n, acc⟩]) =
      pre ++ [⟨n, ks.foldl (fun a kv => upsertA a kv.1 kv.2) acc⟩] := by
  induction ks generalizing acc with
  | nil => rfl
  | cons kv ks' ih =>
    rw [List.foldl_cons, addKeyTo_append_target pre n acc kv.1 kv.2 hpre, ih,
      List.foldl_cons]

theorem parse_kvList (ks : List (String × String)) (secs : List IniSection)
    (cur : String) (h : ∀ kv ∈ ks, KeyOK kv.1 ∧ ValPlain kv.2) :
    (ks.map kvLine).foldl parseLine (some ⟨secs, cur⟩) =
      some ⟨ks.foldl (fun ss kv => addKeyTo ss cur kv.1 kv.2) secs, cur⟩ := by
  induction ks generalizing secs with
  | nil => rfl
  | cons kv ks' ih =>
    rw [List.map_cons, List.foldl_cons,
      show parseLine (some ⟨secs, cur⟩) (kvLine kv) =
        some ⟨addKeyTo secs cur kv.1 kv.2, cur⟩ from
        parseLine_kv ⟨secs, cur⟩ kv.1 kv.2 (h kv (List.mem_cons_self _ _)).1
          (h kv (List.mem_cons_self _ _)).2,
      ih _ (fun q hq => h q (List.mem_cons_of_mem _ hq)), List.foldl_cons]

/-- Processing one rendered non-DEFAULT section from a state whose sections
do not contain its name. -/
theorem parse_section_step (s : IniSection) (secs : List IniSection) (cur : String)
    (hnd : s.name ≠ "DEFAULT") (hfresh : ∀ s' ∈ secs, s'.name ≠ s.name)
    (hkOK : ∀ kv ∈ s.keys, KeyOK kv.1 ∧ ValPlain kv.2)
    (hknd : (s.keys.map Prod.fst).Nodup) :
    (sectionLines s).foldl parseLine (some ⟨secs, cur⟩) =
      some ⟨secs ++ [canonSec s], s.name⟩ := by
  unfold sectionLines
  rw [if_neg hnd]
  rw [List.cons_append, List.nil_append, List.cons_append, List.foldl_cons,
    parseLine_header ⟨secs, cur⟩ s.name]
  have haddSec : addSec secs s.name = secs ++ [⟨s.name, []⟩] := by
    unfold addSec
    rw [if_neg ?_]
    simp only [List.any_eq_true, not_exists, not_and]
    intro s' hs'
    simpa using hfresh s' hs'
  rw [haddSec, List.foldl_append]
  have hmem : ∀ kv ∈ sortKeysList s.keys, KeyOK kv.1 ∧ ValPlain kv.2 := by
    intro kv hkv
    exact hkOK kv ((List.mem_insertionSort keyLe).mp hkv)
  rw [parse_kvList _ _ _ hmem]
  have hsortnd : ((sortKeysList s.keys).map Prod.fst).Nodup :=
    (((List.perm_insertionSort keyLe s.keys).map Prod.fst).nodup_iff).mpr hknd
  rw [addKeyTo_fold _ _ _ _ hfresh,
    upsert_fold_append _ [] (by simp) hsortnd]
  rfl

/-- Processing the rendered head DEFAULT section from the initial state. -/
theorem parse_default_step (ks0 : List (String × String))
    (hkOK : ∀ kv ∈ ks0, KeyOK kv.1 ∧ ValPlain kv.2)
    (hknd : (ks0.map Prod.fst).Nodup) :
    (sectionLines ⟨"DEFAULT", ks0⟩).foldl parseLine (some initPState) =
      some ⟨[⟨"DEFAULT", sortKeysList ks0⟩], "DEFAULT"⟩ := by
  unfold sectionLines
  rw [if_pos rfl]
  have hmem : ∀ kv ∈ sortKeysList ks0, KeyOK kv.1 ∧ ValPlain kv.2 := by
    intro kv hkv
    exact hkOK kv ((List.mem_insertionSort keyLe).mp hkv)
  rw [List.nil_append, List.foldl_append,
    show initPState = ⟨[] ++ [⟨"DEFAULT", []⟩], "DEFAULT"⟩ from rfl,
    parse_kvList _ _ _ hmem]
  have hsortnd : ((sortKeysList ks0).map Prod.fst).Nodup :=
    (((List.perm_insertionSort keyLe ks0).map Prod.fst).nodup_iff).mpr hknd
  rw [addKeyTo_fold _ _ _ _ (by simp),
    upsert_fold_append _ [] (by simp) hsortnd]
  rfl

/-- Processing the rendered lines of the non-DEFAULT sections. -/
theorem parse_rest_sections (rest : List IniSection) :
    ∀ (done : List IniSection) (cur : String),
    (∀ s ∈ rest, s.name ≠ "DEFAULT") →
    (∀ s ∈ rest, ∀ d ∈ done, d.name ≠ s.name) →
    ((rest.map (fun s => s.name)).Nodup) →
    (∀ s ∈ rest, (∀ kv ∈ s.keys, KeyOK kv.1 ∧ ValPlain kv.2) ∧
      (s.keys.map Prod.fst).Nodup) →
    ∃ cur', ((rest.map sectionLines).flatten).foldl parseLine (some ⟨done, cur⟩) =
      some ⟨done ++ rest.map canonSec, cur'⟩ := by
  induction rest with
  | nil =>
    intro done cur _ _ _ _
    exact ⟨cur, by simp⟩
  | cons s rest' ih =>
    intro done cur hnd hfresh hnodup hkeys
    rw [List.map_cons, List.flatten_cons, List.foldl_append]
    rw [parse_section_step s done cur (hnd s (List.mem_cons_self _ _))
      (fun d hd => hfresh s (List.mem_cons_self _ _) d hd)
      (hkeys s (List.mem_cons_self _ _)).1 (hkeys s (List.mem_cons_self _ _)).2]
    simp only [List.map_cons, List.nodup_cons] at hnodup
    obtain ⟨cur', hc⟩ := ih (done ++ [canonSec s]) s.name
      (fun s' hs' => hnd s' (List.mem_cons_of_mem _ hs'))
      (fun s' hs' d hd => by
        rcases List.mem_append.mp hd with h | h
        · exact hfresh s' (List.mem_cons_of_mem _ hs') d h
        · rw [List.mem_singleton] at h
          subst h
          show s.name ≠ s'.name
          exact fun he => hnodup.1 (he ▸ List.mem_map_of_mem _ hs'))
      hnodup.2
      (fun s' hs' => hkeys s' (List.mem_cons_of_mem _ hs'))
    refine ⟨cur', ?_⟩
    rw [hc, List.map_cons, List.append_assoc, List.singleton_append]

/-- Lines emitted for a canonical file contain no newline characters. -/
theorem fileLines_no_nl (f : IniFile) (hf : Canonical f) :
    ∀ l ∈ fileLines f, '\n' ∉ l := by
  intro l hl
  unfold fileLines at hl
  rcases List.mem_flatten.mp hl with ⟨ls, hls, hlmem⟩
  rcases List.mem_map.mp hls with ⟨s, hs, hsec⟩
  subst hsec
  unfold sectionLines at hlmem
  rcases List.mem_append.mp hlmem with hh | htail
  · rcases List.mem_append.mp hh with hh | hkv
    · by_cases hdef : s.name = "DEFAULT"
      · rw [if_pos hdef] at hh
        simp at hh
      · rw [if_neg hdef] at hh
        rw [List.mem_singleton] at hh
        subst hh
        unfold headerLine
        intro hmem
        rcases List.mem_cons.mp hmem with h | h
        · exact absurd h (by decide)
        · rcases List.mem_append.mp h with h | h
          · exact hf.namesOK s hs h
          · rw [List.mem_singleton] at h
            exact absurd h (by decide)
    · rcases List.mem_map.mp hkv with ⟨kv, hkv', hkveq⟩
      subst hkveq
      have hok := hf.keysOK s hs kv ((List.mem_insertionSort keyLe).mp hkv')
      unfold kvLine
      intro hmem
      rcases List.mem_append.mp hmem with h | h
      · exact hok.1.1 h
      · rcases List.mem_cons.mp h with h | h
        · exact absurd h (by decide)
        · rcases List.mem_cons.mp h with h | h
          · exact absurd h (by decide)
          · rcases List.mem_cons.mp h with h | h
            · exact absurd h (by decide)
            · exact hok.2 h
  · rw [List.mem_singleton] at htail
    subst htail
    simp

/-- Round trip: loading the rendered bytes of a canonical store all of whose
values are plain yields the store with each section's keys in sorted order.
(For non-plain values — inline-comment characters, surrounding quotes,
backticks — the loader transforms the value and the round trip fails; see the
C3 counterexample.) -/
theorem parse_render (f : IniFile) (hf : Canonical f) (hpl : PlainFile f) :
    parseIni (render f) = some (canonK f) := by
  obtain ⟨ks0, rest, hshape, hrestnd⟩ := hf.shape
  unfold parseIni render
  rw [show (⟨joinNl (fileLines f)⟩ : String).data = joinNl (fileLines f) from rfl]
  rw [splitNl_joinNl _ (fileLines_no_nl f hf)]
  rw [List.foldl_append]
  have hfl : fileLines f = sectionLines ⟨"DEFAULT", ks0⟩ ++
      (rest.map sectionLines).flatten := by
    unfold fileLines
    rw [hshape, List.map_cons, List.flatten_cons]
  rw [hfl, List.foldl_append]
  have hks0OK : ∀ kv ∈ ks0, KeyOK kv.1 ∧ ValPlain kv.2 := by
    intro kv hkv
    have hmemD : (⟨"DEFAULT", ks0⟩ : IniSection) ∈ f.sections := by
      rw [hshape]; exact List.mem_cons_self _ _
    exact ⟨(hf.keysOK ⟨"DEFAULT", ks0⟩ hmemD kv hkv).1, hpl ⟨"DEFAULT", ks0⟩ hmemD kv hkv⟩
  have hks0nd : (ks0.map Prod.fst).Nodup :=
    hf.keysND ⟨"DEFAULT", ks0⟩ (by rw [hshape]; exact List.mem_cons_self _ _)
  rw [parse_default_step ks0 hks0OK hks0nd]
  have hnodupnames := hf.nodupNames
  rw [hshape] at hnodupnames
  simp only [List.map_cons, List.nodup_cons] at hnodupnames
  obtain ⟨cur', hc⟩ := parse_rest_sections rest [⟨"DEFAULT", sortKeysList ks0⟩]
    "DEFAULT" hrestnd
    (fun s' hs' d hd => by
      rw [List.mem_singleton] at hd
      subst hd
      show "DEFAULT" ≠ s'.name
      exact fun he => hrestnd s' hs' he.symm)
    hnodupnames.2
    (fun s' hs' => ⟨fun kv hkv =>
        ⟨(hf.keysOK s' (by rw [hshape]; exact List.mem_cons_of_mem _ hs') kv hkv).1,
          hpl s' (by rw [hshape]; exact List.mem_cons_of_mem _ hs') kv hkv⟩,
      hf.keysND s' (by rw [hshape]; exact List.mem_cons_of_mem _ hs')⟩)
  rw [hc]
  rw [List.foldl_cons, parseLine_blank, List.foldl_nil]
  unfold canonK
  rw [hshape, List.map_cons]
  rfl

/-! ## The loader invariant: every accepted file is canonical -/

theorem cutInlineComment_sublist (t : List Char) :
    (cutInlineComment t).Sublist t := by
  unfold cutInlineComment
  by_cases h : t.any isInlineCmt = true
  · rw [if_pos h]
    exact (trimLst_sublist _).trans (List.takeWhile_sublist _)
  · rw [if_neg h]

theorem unquoteVal_sublist (t : List Char) : (unquoteVal t).Sublist t := by
  unfold unquoteVal
  by_cases h : (hasSurroundedQuote t '\'' || hasSurroundedQuote t '"') = true
  · rw [if_pos h]
    exact (List.dropLast_sublist _).trans (List.drop_sublist _ _)
  · rw [if_neg h]

/-- Every character of a value `readValue` returns comes from its input. -/
theorem readValue_subset {raw vd : List Char} (h : readValue raw = some vd) :
    ∀ x ∈ vd, x ∈ raw := by
  intro x hx
  unfold readValue at h
  have h4 : (trimL raw).Sublist raw := List.dropWhile_sublist isWs
  cases htl : trimL raw with
  | nil =>
    rw [htl] at h
    have h2 : some ([] : List Char) = some vd := h
    injection h2 with h3
    rw [← h3] at hx
    exact absurd hx (by simp)
  | cons c rest =>
    rw [htl] at h h4
    have hsub : ∀ y ∈ (c :: rest), y ∈ raw := fun y hy => h4.subset hy
    have h' : (if c = '`' then readBacktick rest
        else some (unquoteVal (cutInlineComment (trimR (c :: rest))))) =
      some vd := h
    by_cases hc : c = '`'
    · rw [if_pos hc] at h'
      unfold readBacktick at h'
      cases hdw : rest.reverse.dropWhile (fun d => d ≠ '`') with
      | nil => rw [hdw] at h'; exact absurd h' (by simp)
      | cons d revVal =>
        rw [hdw] at h'
        have h2 : some revVal.reverse = some vd := h'
        injection h2 with h3
        rw [← h3] at hx
        rw [List.mem_reverse] at hx
        have h6 : (rest.reverse.dropWhile (fun d => d ≠ '`')).Sublist
            rest.reverse := List.dropWhile_sublist _
        rw [hdw] at h6
        have hxr : x ∈ rest.reverse := h6.subset (List.mem_cons_of_mem _ hx)
        exact hsub x (List.mem_cons_of_mem c (List.mem_reverse.mp hxr))
    · rw [if_neg hc] at h'
      injection h' with h3
      rw [← h3] at hx
      have h5 : (unquoteVal (cutInlineComment (trimR (c :: rest)))).Sublist
          (c :: rest) :=
        ((unquoteVal_sublist _).trans (cutInlineComment_sublist _)).trans
          (trimR_sublist _)
      exact hsub x (h5.subset hx)

theorem parseKVLine_ok (c : Char) (body : List Char)
    (hnl : '\n' ∉ (c :: body)) (htr : trimLst (c :: body) = c :: body)
    (hc1 : ¬(c = '#' ∨ c = ';')) (hc2 : ¬(c = '[')) (k v : String)
    (h : parseKVLine (c :: body) = some (k, v)) : KeyOK k ∧ '\n' ∉ v.data := by
  unfold parseKVLine at h
  cases hdw : (c :: body).dropWhile nonDelim with
  | nil => rw [hdw] at h; exact absurd h (by simp)
  | cons d rest =>
    rw [hdw] at h
    have h' : (match readValue rest with
        | none => none
        | some vd => some ((⟨trimLst ((c :: body).takeWhile nonDelim)⟩ : String),
            (⟨vd⟩ : String))) = some (k, v) := h
    cases hrv : readValue rest with
    | none => rw [hrv] at h'; exact absurd h' (by simp)
    | some vd =>
      rw [hrv] at h'
      simp only [Option.some.injEq, Prod.mk.injEq] at h'
      obtain ⟨hk, hv⟩ := h'
      subst hk
      subst hv
      have hksub : (trimLst ((c :: body).takeWhile nonDelim)).Sublist (c :: body) :=
        (trimLst_sublist _).trans (List.takeWhile_sublist _)
      constructor
      · refine ⟨?_, ?_, ?_, ?_, ?_⟩
        · exact fun hm => hnl (hksub.subset hm)
        · exact trimLst_idem _
        · intro hm
          exact absurd (List.mem_takeWhile_imp ((trimLst_sublist _).subset hm))
            (by decide)
        · intro hm
          exact absurd (List.mem_takeWhile_imp ((trimLst_sublist _).subset hm))
            (by decide)
        · intro c' hc'
          by_cases hnd : nonDelim c = true
          · rw [show (c :: body).takeWhile nonDelim =
                c :: body.takeWhile nonDelim from by
              rw [List.takeWhile_cons, if_pos hnd]] at hc'
            have hws : isWs c = false := trimLst_head_not_ws htr
            rw [show trimLst (c :: body.takeWhile nonDelim) =
                trimR (c :: body.takeWhile nonDelim) from by
              unfold trimLst
              rw [trimL_cons_not hws]] at hc'
            rcases trimR_head (c :: body.takeWhile nonDelim) with he | he
            · rw [he] at hc'
              exact absurd hc' (by simp)
            · rw [he] at hc'
              simp only [List.head?_cons, Option.some.injEq] at hc'
              subst hc'
              refine ⟨fun he => hc2 he, fun he => hc1 (Or.inl he),
                fun he => hc1 (Or.inr he)⟩
          · rw [show (c :: body).takeWhile nonDelim = [] from by
              rw [List.takeWhile_cons, if_neg hnd]] at hc'
            exact absurd hc' (by simp [trimLst, trimL, trimR])
      · have hrsub : rest.Sublist (c :: body) := by
          have h1 : ((c :: body).dropWhile nonDelim).Sublist (c :: body) :=
            List.dropWhile_sublist _
          rw [hdw] at h1
          exact (List.sublist_cons_self d rest).trans h1
        intro hm
        exact hnl (hrsub.subset (readValue_subset hrv '\n' hm))

theorem parseHeaderName_sub (body : List Char) (n : String)
    (h : parseHeaderName body = some n) : ∀ x ∈ n.data, x ∈ body := by
  unfold parseHeaderName at h
  cases hdw : body.reverse.dropWhile (fun d => d ≠ ']') with
  | nil => rw [hdw] at h; exact absurd h (by simp)
  | cons d nameRev =>
    rw [hdw] at h
    simp only [Option.some.injEq] at h
    subst h
    intro x hx
    rw [show (⟨nameRev.reverse⟩ : String).data = nameRev.reverse from rfl,
      List.mem_reverse] at hx
    have h1 : (d :: nameRev).Sublist body.reverse := by
      have h2 := List.dropWhile_sublist (l := body.reverse) (fun d => d ≠ ']')
      rw [hdw] at h2
      exact h2
    exact List.mem_reverse.mp (h1.subset (List.mem_cons_of_mem _ hx))

theorem shape_of_names (sections : List IniSection) (names' : List String)
    (h : sections.map (fun s => s.name) = "DEFAULT" :: names')
    (h2 : ∀ x ∈ names', x ≠ "DEFAULT") :
    ∃ ks0 rest, sections = ⟨"DEFAULT", ks0⟩ :: rest ∧
      ∀ s ∈ rest, s.name ≠ "DEFAULT" := by
  cases sections with
  | nil => exact absurd h (by simp)
  | cons s0 rest =>
    rw [List.map_cons] at h
    injection h with h0 h1
    cases s0 with
    | mk nm ks =>
      have h0' : nm = "DEFAULT" := h0
      subst h0'
      refine ⟨ks, rest, rfl, ?_⟩
      intro s hs he
      exact h2 s.name (h1 ▸ List.mem_map_of_mem _ hs) he

theorem addSec_inv (secs : List IniSection) (n : String) (hinv : Canonical ⟨secs⟩)
    (hnl : '\n' ∉ n.data) : Canonical ⟨addSec secs n⟩ := by
  unfold addSec
  by_cases hany : secs.any (fun s => s.name = n)
  · rw [if_pos hany]; exact hinv
  · rw [if_neg hany]
    have hfresh : ∀ s ∈ secs, s.name ≠ n := by
      intro s hs he
      exact hany (List.any_eq_true.mpr ⟨s, hs, by simp [he]⟩)
    obtain ⟨ks0, rest, hshape, hrest⟩ := hinv.shape
    have hsecs : secs = ⟨"DEFAULT", ks0⟩ :: rest := hshape
    constructor
    · refine ⟨ks0, rest ++ [⟨n, []⟩], ?_, ?_⟩
      · show secs ++ [⟨n, []⟩] = _
        rw [hsecs, List.cons_append]
      · intro s hs
        rcases List.mem_append.mp hs with h | h
        · exact hrest s h
        · rw [List.mem_singleton] at h
          subst h
          intro he
          exact hfresh ⟨"DEFAULT", ks0⟩
            (by rw [hsecs]; exact List.mem_cons_self _ _) he.symm
    · show ((secs ++ [(⟨n, []⟩ : IniSection)]).map (fun s => s.name)).Nodup
      rw [List.map_append]
      refine List.Nodup.append hinv.nodupNames (by simp) ?_
      intro x hx
      rcases List.mem_map.mp hx with ⟨s, hs, hname⟩
      simp only [List.map_cons, List.map_nil, List.mem_singleton]
      intro he
      exact hfresh s hs (by rw [hname, he])
    · intro s hs
      rcases List.mem_append.mp hs with h | h
      · exact hinv.namesOK s h
      · rw [List.mem_singleton] at h
        subst h
        exact hnl
    · intro s hs
      rcases List.mem_append.mp hs with h | h
      · exact hinv.keysND s h
      · rw [List.mem_singleton] at h
        subst h
        simp
    · intro s hs
      rcases List.mem_append.mp hs with h | h
      · exact hinv.keysOK s h
      · rw [List.mem_singleton] at h
        subst h
        intro kv hkv
        exact absurd hkv (by simp)

theorem updSec_name (cur k v : String) (s : IniSection) :
    (updSec cur k v s).name = s.name := by
  unfold updSec
  by_cases h : s.name = cur
  · rw [if_pos h]
  · rw [if_neg h]

theorem updSec_keysND (cur k v : String) (s : IniSection)
    (h : (s.keys.map Prod.fst).Nodup) :
    ((updSec cur k v s).keys.map Prod.fst).Nodup := by
  unfold updSec
  by_cases hh : s.name = cur
  · rw [if_pos hh]
    exact map_fst_upsertA_nodup k v h
  · rw [if_neg hh]
    exact h

theorem updSec_keysOK (cur k v : String) (hk : KeyOK k) (hv : '\n' ∉ v.data)
    (s : IniSection) (h : ∀ kv ∈ s.keys, KeyOK kv.1 ∧ '\n' ∉ kv.2.data) :
    ∀ kv ∈ (updSec cur k v s).keys, KeyOK kv.1 ∧ '\n' ∉ kv.2.data := by
  unfold updSec
  by_cases hh : s.name = cur
  · rw [if_pos hh]
    intro kv hkv
    rcases mem_upsertA hkv with hmem | heq
    · exact h kv hmem
    · subst heq
      exact ⟨hk, hv⟩
  · rw [if_neg hh]
    exact h

theorem addKeyTo_inv (secs : List IniSection) (cur k v : String)
    (hinv : Canonical ⟨secs⟩) (hk : KeyOK k) (hv : '\n' ∉ v.data) :
    Canonical ⟨addKeyTo secs cur k v⟩ := by
  unfold addKeyTo
  have hnames : (secs.map (updSec cur k v)).map (fun s => s.name) =
      secs.map (fun s => s.name) := by
    rw [List.map_map]
    exact List.map_congr_left (fun s _ => updSec_name cur k v s)
  obtain ⟨ks0, rest, hshape, hrest⟩ := hinv.shape
  have hsecs : secs = ⟨"DEFAULT", ks0⟩ :: rest := hshape
  constructor
  · refine shape_of_names _ (rest.map (fun s => s.name)) ?_ ?_
    · rw [hnames, hsecs]
      rfl
    · intro x hx
      rcases List.mem_map.mp hx with ⟨s, hs, hname⟩
      rw [← hname]
      exact hrest s hs
  · show ((secs.map (updSec cur k v)).map (fun s => s.name)).Nodup
    rw [hnames]
    exact hinv.nodupNames
  · intro s hs
    rcases List.mem_map.mp hs with ⟨s0, hs0, heq⟩
    rw [← heq, updSec_name]
    exact hinv.namesOK s0 hs0
  · intro s hs
    rcases List.mem_map.mp hs with ⟨s0, hs0, heq⟩
    rw [← heq]
    exact updSec_keysND cur k v s0 (hinv.keysND s0 hs0)
  · intro s hs
    rcases List.mem_map.mp hs with ⟨s0, hs0, heq⟩
    rw [← heq]
    exact updSec_keysOK cur k v hk hv s0 (hinv.keysOK s0 hs0)

theorem parseLineCore_comment (st : PState) (c : Char) (body : List Char)
    (h1 : c = '#' ∨ c = ';') : parseLineCore st (c :: body) = some st := by
  show (if c = '#' ∨ c = ';' then some st
    else if c = '[' then
      match parseHeaderName body with
      | none => none
      | some n => some ⟨addSec st.secs n, n⟩
    else
      match parseKVLine (c :: body) with
      | none => none
      | some (k, v) => some ⟨addKeyTo st.secs st.cur k v, st.cur⟩) = _
  rw [if_pos h1]

theorem parseLineCore_header (st : PState) (c : Char) (body : List Char)
    (h1 : ¬(c = '#' ∨ c = ';')) (h2 : c = '[') :
    parseLineCore st (c :: body) =
      match parseHeaderName body with
      | none => none
      | some n => some ⟨addSec st.secs n, n⟩ := by
  show (if c = '#' ∨ c = ';' then some st
    else if c = '[' then
      match parseHeaderName body with
      | none => none
      | some n => some ⟨addSec st.secs n, n⟩
    else
      match parseKVLine (c :: body) with
      | none => none
      | some (k, v) => some ⟨addKeyTo st.secs st.cur k v, st.cur⟩) = _
  rw [if_neg h1, if_pos h2]

theorem parseLine_inv (st : PState) (line : List Char) (hnl : '\n' ∉ line)
    (hinv : StInv st) (st' : PState) (h : parseLine (some st) line = some st') :
    StInv st' := by
  have h' : parseLineCore st (trimLst line) = some st' := h
  cases htl : trimLst line with
  | nil =>
    rw [htl] at h'
    have h2 : some st = some st' := h'
    injection h2 with h3
    rw [← h3]
    exact hinv
  | cons c body =>
    rw [htl] at h'
    have hnl2 : '\n' ∉ (c :: body) := by
      rw [← htl]
      exact fun hm => hnl ((trimLst_sublist line).subset hm)
    by_cases hc1 : c = '#' ∨ c = ';'
    · rw [parseLineCore_comment st c body hc1] at h'
      injection h' with h3
      rw [← h3]
      exact hinv
    · by_cases hc2 : c = '['
      · rw [parseLineCore_header st c body hc1 hc2] at h'
        cases hp : parseHeaderName body with
        | none =>
          rw [hp] at h'
          have h2 : (none : Option PState) = some st' := h'
          exact absurd h2 (by simp)
        | some n =>
          rw [hp] at h'
          have h2 : some (⟨addSec st.secs n, n⟩ : PState) = some st' := h'
          injection h2 with h3
          rw [← h3]
          show Canonical ⟨addSec st.secs n⟩
          refine addSec_inv st.secs n hinv ?_
          intro hm
          exact hnl2 (List.mem_cons_of_mem c (parseHeaderName_sub body n hp '\n' hm))
      · rw [parseLineCore_kv st c body hc1 hc2] at h'
        cases hp : parseKVLine (c :: body) with
        | none =>
          rw [hp] at h'
          have h2 : (none : Option PState) = some st' := h'
          exact absurd h2 (by simp)
        | some kv =>
          obtain ⟨k, v⟩ := kv
          rw [hp] at h'
          have h2 : some (⟨addKeyTo st.secs st.cur k v, st.cur⟩ : PState) =
              some st' := h'
          injection h2 with h3
          rw [← h3]
          have htr : trimLst (c :: body) = c :: body := by
            rw [← htl, trimLst_idem]
          obtain ⟨hk, hv⟩ := parseKVLine_ok c body hnl2 htr hc1 hc2 k v hp
          show Canonical ⟨addKeyTo st.secs st.cur k v⟩
          exact addKeyTo_inv st.secs st.cur k v hinv hk hv

theorem parse_fold_none (ls : List (List Char)) :
    ls.foldl parseLine none = none := by
  induction ls with
  | nil => rfl
  | cons l ls ih =>
    rw [List.foldl_cons]
    exact ih

theorem parse_fold_inv (lines : List (List Char)) :
    ∀ st : PState, StInv st → (∀ l ∈ lines, '\n' ∉ l) →
    ∀ st' : PState, lines.foldl parseLine (some st) = some st' → StInv st' := by
  induction lines with
  | nil =>
    intro st hinv _ st' h
    injection h with h3
    rw [← h3]
    exact hinv
  | cons l ls ih =>
    intro st hinv hnl st' h
    rw [List.foldl_cons] at h
    cases h1 : parseLine (some st) l with
    | none =>
      rw [h1, parse_fold_none] at h
      exact absurd h (by simp)
    | some st1 =>
      rw [h1] at h
      exact ih st1 (parseLine_inv st l (hnl l (List.mem_cons_self _ _)) hinv st1 h1)
        (fun l' hl' => hnl l' (List.mem_cons_of_mem _ hl')) st' h

theorem emptyIni_canonical : Canonical emptyIni := by
  constructor
  · exact ⟨[], [], rfl, by simp⟩
  · simp [emptyIni]
  · intro s hs
    rw [show emptyIni.sections = [⟨"DEFAULT", []⟩] from rfl,
      List.mem_singleton] at hs
    subst hs
    decide
  · intro s hs
    rw [show emptyIni.sections = [⟨"DEFAULT", []⟩] from rfl,
      List.mem_singleton] at hs
    subst hs
    simp
  · intro s hs
    rw [show emptyIni.sections = [⟨"DEFAULT", []⟩] from rfl,
      List.mem_singleton] at hs
    subst hs
    intro kv hkv
    exact absurd hkv (by simp)

theorem parse_canonical (txt : String) (f : IniFile)
    (h : parseIni txt = some f) : Canonical f := by
  unfold parseIni at h
  cases hfold : (splitNl txt.data).foldl parseLine (some initPState) with
  | none =>
    rw [hfold] at h
    exact absurd h (by simp)
  | some st =>
    rw [hfold] at h
    have h2 : some (⟨st.secs⟩ : IniFile) = some f := h
    injection h2 with h3
    rw [← h3]
    exact parse_fold_inv (splitNl txt.data) initPState emptyIni_canonical
      (fun l hl => mem_splitNl_no_nl txt.data l hl) st hfold

theorem getD_canonical (txt : String) :
    Canonical ((parseIni txt).getD emptyIni) := by
  cases hp : parseIni txt with
  | none => exact emptyIni_canonical
  | some f =>
    rw [Option.getD_some]
    exact parse_canonical txt f hp

/-! ## Structure of the profile update -/

theorem str_append_cancel {s a b : String} (h : s ++ a = s ++ b) : a = b := by
  have h2 := congrArg String.data h
  rw [String.data_append, String.data_append] at h2
  exact String.ext (List.append_cancel_left h2)

theorem profile_ne_default (x : String) : ("profile " ++ x) ≠ "DEFAULT" := by
  intro h
  have hlen := congrArg String.length h
  rw [String.length_append] at hlen
  have h8 : ("profile " : String).length = 8 := rfl
  have h7 : ("DEFAULT" : String).length = 7 := rfl
  omega

theorem fold_upsert_nodup {α β : Type} (key : β → String) (val : β → α) :
    ∀ (l : List β) (acc : List (String × α)), (acc.map Prod.fst).Nodup →
      ((l.foldl (fun a x => upsertA a (key x) (val x)) acc).map Prod.fst).Nodup := by
  intro l
  induction l with
  | nil => intro acc h; exact h
  | cons b t ih =>
    intro acc h
    rw [List.foldl_cons]
    exact ih _ (map_fst_upsertA_nodup _ _ h)

theorem fold_upsert_mem {α β : Type} (key : β → String) (val : β → α) :
    ∀ (l : List β) (acc : List (String × α)) (x : String × α),
      x ∈ l.foldl (fun a y => upsertA a (key y) (val y)) acc →
      x ∈ acc ∨ ∃ b ∈ l, x = (key b, val b) := by
  intro l
  induction l with
  | nil => intro acc x h; exact Or.inl h
  | cons b t ih =>
    intro acc x h
    rw [List.foldl_cons] at h
    rcases ih _ x h with h2 | h2
    · rcases mem_upsertA h2 with h3 | h3
      · exact Or.inl h3
      · exact Or.inr ⟨b, List.mem_cons_self _ _, h3⟩
    · rcases h2 with ⟨b', hb', he⟩
      exact Or.inr ⟨b', List.mem_cons_of_mem _ hb', he⟩

theorem buildKeys_fst_nodup (kv : List (String × String)) :
    ((buildKeys kv).map Prod.fst).Nodup := by
  unfold buildKeys
  exact fold_upsert_nodup Prod.fst Prod.snd kv [] (by simp)

theorem mem_buildKeys {kv : List (String × String)} {x : String × String}
    (h : x ∈ buildKeys kv) : x ∈ kv := by
  unfold buildKeys at h
  rcases fold_upsert_mem Prod.fst Prod.snd kv [] x h with h2 | h2
  · exact absurd h2 (by simp)
  · rcases h2 with ⟨b, hb, he⟩
    rw [he]
    exact hb

theorem keepSec_true_iff (P : List (String × List (String × String)))
    (s : IniSection) :
    keepSec P s = true ↔ ∀ q ∈ P, s.name ≠ "profile " ++ q.1 := by
  simp [keepSec]

theorem keepSec_cons (p : String × List (String × String))
    (P : List (String × List (String × String))) (s : IniSection) :
    keepSec (p :: P) s = (keepSec P s && decide (s.name ≠ "profile " ++ p.1)) := by
  unfold keepSec
  rw [List.any_cons]
  by_cases h : s.name = "profile " ++ p.1
  · simp [h]
  · simp [h]

theorem applyProfiles_eq (P : List (String × List (String × String))) :
    ∀ f : IniFile, (P.map Prod.fst).Nodup →
      applyProfiles f P = ⟨delAllP f P ++ newSecs P⟩ := by
  induction P with
  | nil =>
    intro f _
    rw [show delAllP f [] = f.sections from List.filter_eq_self.mpr (fun a _ => rfl),
      show newSecs ([] : List (String × List (String × String))) = [] from rfl,
      List.append_nil]
    rfl
  | cons p P' ih =>
    intro f hnd
    simp only [List.map_cons, List.nodup_cons] at hnd
    have step : applyProfiles f (p :: P') =
        applyProfiles ⟨(deleteSection f ("profile " ++ p.1)).sections ++
          [⟨"profile " ++ p.1, buildKeys p.2⟩]⟩ P' := rfl
    rw [step, ih _ hnd.2]
    have hkeep : keepSec P' ⟨"profile " ++ p.1, buildKeys p.2⟩ = true := by
      refine (keepSec_true_iff P' _).mpr ?_
      intro q hq he
      have he' : p.1 = q.1 := str_append_cancel he
      exact hnd.1 (he' ▸ List.mem_map_of_mem Prod.fst hq)
    have hdel : delAllP ⟨(deleteSection f ("profile " ++ p.1)).sections ++
        [⟨"profile " ++ p.1, buildKeys p.2⟩]⟩ P' =
        delAllP f (p :: P') ++ [⟨"profile " ++ p.1, buildKeys p.2⟩] := by
      show ((f.sections.filter (fun s : IniSection => s.name ≠ "profile " ++ p.1)) ++
        [(⟨"profile " ++ p.1, buildKeys p.2⟩ : IniSection)]).filter (keepSec P') = _
      rw [List.filter_append, List.filter_cons_of_pos hkeep]
      show _ ++ [(⟨"profile " ++ p.1, buildKeys p.2⟩ : IniSection)] = _
      congr 1
      rw [List.filter_filter]
      show f.sections.filter
          (fun a => keepSec P' a && decide (a.name ≠ "profile " ++ p.1)) = _
      refine (List.filter_congr ?_).symm
      intro s _
      exact keepSec_cons p P' s
    rw [hdel, List.append_assoc, List.singleton_append]
    rfl

theorem applied_canonical (f : IniFile) (P : List (String × List (String × String)))
    (hf : Canonical f) (hP : ProfilesWF P) :
    Canonical ⟨delAllP f P ++ newSecs P⟩ := by
  obtain ⟨hnd, hmemWF⟩ := hP
  obtain ⟨ks0, rest, hsecs, hrest⟩ := hf.shape
  have hkeepD : keepSec P ⟨"DEFAULT", ks0⟩ = true :=
    (keepSec_true_iff P _).mpr (fun q _ he => profile_ne_default q.1 he.symm)
  have hdel : delAllP f P = ⟨"DEFAULT", ks0⟩ :: rest.filter (keepSec P) := by
    show f.sections.filter (keepSec P) = _
    rw [hsecs, List.filter_cons_of_pos hkeepD]
  constructor
  · refine ⟨ks0, rest.filter (keepSec P) ++ newSecs P, ?_, ?_⟩
    · show delAllP f P ++ newSecs P = _
      rw [hdel, List.cons_append]
    · intro s hs
      rcases List.mem_append.mp hs with h | h
      · exact hrest s (List.mem_of_mem_filter h)
      · rcases List.mem_map.mp h with ⟨q, _, rfl⟩
        exact profile_ne_default q.1
  · show ((delAllP f P ++ newSecs P).map (fun s => s.name)).Nodup
    rw [List.map_append]
    refine List.Nodup.append ?_ ?_ ?_
    · exact List.Nodup.sublist
        ((List.filter_sublist f.sections).map (fun s => s.name)) hf.nodupNames
    · have hre : (newSecs P).map (fun s => s.name) =
          (P.map Prod.fst).map (fun x => "profile " ++ x) := by
        unfold newSecs
        rw [List.map_map, List.map_map]
        exact List.map_congr_left (fun q _ => rfl)
      rw [hre]
      exact List.Nodup.map (fun a b h => str_append_cancel h) hnd
    · intro x hx hx2
      rcases List.mem_map.mp hx with ⟨s, hs, hname⟩
      rcases List.mem_map.mp hx2 with ⟨s2, hs2, hname2⟩
      rcases List.mem_map.mp hs2 with ⟨q, hq, rfl⟩
      have hs' : s ∈ f.sections.filter (keepSec P) := hs
      have hk := (keepSec_true_iff P s).mp (List.of_mem_filter hs') q hq
      apply hk
      rw [hname]
      rw [← hname2]
  · intro s hs
    rcases List.mem_append.mp hs with h | h
    · exact hf.namesOK s (List.mem_of_mem_filter h)
    · rcases List.mem_map.mp h with ⟨q, hq, rfl⟩
      show '\n' ∉ ("profile " ++ q.1).data
      rw [String.data_append]
      intro hm
      rcases List.mem_append.mp hm with h2 | h2
      · exact absurd h2 (by decide)
      · exact (hmemWF q hq).1 h2
  · intro s hs
    rcases List.mem_append.mp hs with h | h
    · exact hf.keysND s (List.mem_of_mem_filter h)
    · rcases List.mem_map.mp h with ⟨q, _, rfl⟩
      exact buildKeys_fst_nodup q.2
  · intro s hs
    rcases List.mem_append.mp hs with h | h
    · exact hf.keysOK s (List.mem_of_mem_filter h)
    · rcases List.mem_map.mp h with ⟨q, hq, rfl⟩
      intro kv hkv
      have h2 := (hmemWF q hq).2 kv (mem_buildKeys hkv)
      exact ⟨h2.1, h2.2.1.1⟩

/-! ## Rendering is insensitive to the key-sorting normalisation -/

/-- The profile update preserves plainness of values: kept sections come from
the prior store, regenerated ones from the (plain) profile mapping. -/
theorem applied_plain (c0 : IniFile) (P : List (String × List (String × String)))
    (hpl : PlainFile c0) (hP : ProfilesWF P) :
    PlainFile ⟨delAllP c0 P ++ newSecs P⟩ := by
  intro s hs
  rcases List.mem_append.mp hs with h | h
  · exact hpl s (List.mem_of_mem_filter h)
  · rcases List.mem_map.mp h with ⟨q, hq, rfl⟩
    intro kv hkv
    exact ((hP.2 q hq).2 kv (mem_buildKeys hkv)).2

theorem loadedConfig_canonical (prior : Option String) :
    Canonical (loadedConfig prior) := by
  cases prior with
  | none => exact emptyIni_canonical
  | some txt => exact getD_canonical txt

/-! ## Well-formedness of the generated profile mapping -/

theorem lookupA_some_iff {α : Type} :
    ∀ (l : List (String × α)), (l.map Prod.fst).Nodup →
      ∀ (k : String) (v : α), (lookupA l k = some v ↔ (k, v) ∈ l) := by
  intro l
  induction l with
  | nil =>
    intro _ k v
    simp [lookupA]
  | cons p t ih =>
    intro hnd k v
    simp only [List.map_cons, List.nodup_cons] at hnd
    have heq : lookupA (p :: t) k = if p.1 = k then some p.2 else lookupA t k := rfl
    by_cases hp : p.1 = k
    · constructor
      · intro h
        rw [heq, if_pos hp] at h
        injection h with h2
        rw [List.mem_cons]
        left
        rw [← h2, ← hp]
      · intro h
        rcases List.mem_cons.mp h with he | hmem
        · rw [heq, if_pos hp, ← he]
        · have hx : k ∈ t.map Prod.fst := List.mem_map_of_mem Prod.fst hmem
          rw [← hp] at hx
          exact absurd hx hnd.1
    · rw [heq, if_neg hp, ih hnd.2 k v]
      constructor
      · exact fun h => List.mem_cons_of_mem _ h
      · intro h
        rcases List.mem_cons.mp h with he | hmem
        · exact absurd (congrArg Prod.fst he).symm hp
        · exact hmem

theorem lookupA_sortKeys (ks : List (String × String))
    (hnd : (ks.map Prod.fst).Nodup) (k v : String)
    (h : lookupA ks k = some v) : lookupA (sortKeysList ks) k = some v := by
  have hperm : (sortKeysList ks).Perm ks := List.perm_insertionSort keyLe ks
  have hnd' : ((sortKeysList ks).map Prod.fst).Nodup :=
    ((hperm.map Prod.fst).nodup_iff).mpr hnd
  rw [lookupA_some_iff _ hnd' k v]
  exact hperm.mem_iff.mpr ((lookupA_some_iff ks hnd k v).mp h)

theorem find?_cons_pos {α : Type} (p : α → Bool) (a : α) (l : List α)
    (h : p a = true) : (a :: l).find? p = some a :=
  List.find?_cons_of_pos l h

theorem find?_cons_neg {α : Type} (p : α → Bool) (a : α) (l : List α)
    (h : ¬ p a = true) : (a :: l).find? p = l.find? p :=
  List.find?_cons_of_neg l h

theorem find?_append_none {α : Type} (p : α → Bool) :
    ∀ (l1 l2 : List α), (∀ x ∈ l1, ¬ p x = true) →
      (l1 ++ l2).find? p = l2.find? p := by
  intro l1
  induction l1 with
  | nil => intro l2 _; rfl
  | cons a t ih =>
    intro l2 h
    rw [List.cons_append, List.find?_cons_of_neg _ (h a (List.mem_cons_self _ _)),
      ih l2 (fun x hx => h x (List.mem_cons_of_mem _ hx))]

theorem find?_newSecs (P : List (String × List (String × String)))
    (hnd : (P.map Prod.fst).Nodup) (n : String) (kv : List (String × String))
    (hmem : (n, kv) ∈ P) :
    ((newSecs P).map canonSec).find? (fun s => s.name = "profile " ++ n) =
      some (canonSec ⟨"profile " ++ n, buildKeys kv⟩) := by
  induction P with
  | nil => exact absurd hmem (by simp)
  | cons q Q ih =>
    simp only [List.map_cons, List.nodup_cons] at hnd
    rcases List.mem_cons.mp hmem with he | htail
    · subst he
      rw [show (newSecs ((n, kv) :: Q)).map canonSec =
          canonSec ⟨"profile " ++ n, buildKeys kv⟩ :: (newSecs Q).map canonSec from
        rfl]
      exact find?_cons_pos _ _ _ (decide_eq_true rfl)
    · have hq : q.1 ≠ n := by
        intro he
        have hx : n ∈ Q.map Prod.fst := List.mem_map_of_mem Prod.fst htail
        rw [← he] at hx
        exact hnd.1 hx
      rw [show (newSecs (q :: Q)).map canonSec =
          canonSec ⟨"profile " ++ q.1, buildKeys q.2⟩ :: (newSecs Q).map canonSec
        from rfl]
      exact (find?_cons_neg (fun s : IniSection => decide (s.name = "profile " ++ n))
        (canonSec ⟨"profile " ++ q.1, buildKeys q.2⟩) ((newSecs Q).map canonSec)
        (fun he => hq (str_append_cancel (of_decide_eq_true he)))).trans
        (ih hnd.2 htail)

theorem roundtrip_core (c0 : IniFile) (hc0 : Canonical c0) (hpl : PlainFile c0)
    (P : List (String × List (String × String))) (hP : ProfilesWF P)
    (n : String) (kv : List (String × String)) (hmem : (n, kv) ∈ P)
    (k v : String) (hkv : lookupA (buildKeys kv) k = some v) :
    loadProfileValue (render (applyProfiles c0 P)) ("profile " ++ n) k = some v := by
  rw [applyProfiles_eq P c0 hP.1]
  unfold loadProfileValue
  rw [parse_render _ (applied_canonical c0 P hc0 hP) (applied_plain c0 P hpl hP),
    Option.some_bind]
  have hnone : ∀ x ∈ (delAllP c0 P).map canonSec,
      ¬ ((fun s : IniSection => decide (s.name = "profile " ++ n)) x = true) := by
    intro x hx he
    rcases List.mem_map.mp hx with ⟨s, hs, rfl⟩
    have hs' : s ∈ c0.sections.filter (keepSec P) := hs
    exact (keepSec_true_iff P s).mp (List.of_mem_filter hs') (n, kv) hmem
      (of_decide_eq_true he)
  have hfind : ((canonK ⟨delAllP c0 P ++ newSecs P⟩).sections.find?
      (fun s => s.name = "profile " ++ n)) =
      some (canonSec ⟨"profile " ++ n, buildKeys kv⟩) := by
    show (((delAllP c0 P ++ newSecs P).map canonSec).find?
      (fun s : IniSection => decide (s.name = "profile " ++ n))) = _
    rw [List.map_append, find?_append_none _ _ _ hnone]
    exact find?_newSecs P hP.1 n kv hmem
  rw [hfind, Option.some_bind]
  show lookupA (sortKeysList (buildKeys kv)) k = some v
  exact lookupA_sortKeys _ (buildKeys_fst_nodup kv) k v hkv

/-- C3 (counterexample): the write path emits the value verbatim, but the
subsequent default `ini.Load` cuts an unquoted value at the first `#`
(inline comment): the start URL `https://ex.awsapps.com/start#/` written to
the store reads back as `https://ex.awsapps.com/start` — not byte-for-byte. -/
theorem roundtrip_escaping_counterexample :
    loadProfileValue
        (writeProfilesToConfig none
          [("team", [("sso_start_url", "https://ex.awsapps.com/start#/")])])
        ("profile " ++ "team") "sso_start_url" =
      some "https://ex.awsapps.com/start" ∧
    ("https://ex.awsapps.com/start" : String) ≠ "https://ex.awsapps.com/start#/" :=
  ⟨by decide, by decide⟩

/-- C3 (amended): the write path escapes nothing, and a *plain* value — one
free of the inline-comment characters `#`/`;`, trimmed, not quote- or
backtick-delimited — is returned byte-for-byte by a subsequent load; this
covers URLs with `/` and `:` such as a sanitized sso_start_url.  A value
containing `#` or `;` is instead truncated at it by go-ini's inline-comment
handling (see the counterexample), so the claimed round-trip for `#` fails. -/
theorem writeProfiles_roundtrip_plain (prior : Option String)
    (P : List (String × List (String × String))) (hP : ProfilesWF P)
    (hprior : PlainFile (loadedConfig prior))
    (n : String) (kv : List (String × String)) (hmem : (n, kv) ∈ P)
    (k v : String) (hkv : lookupA (buildKeys kv) k = some v)
    (_hpunct : '/' ∈ v.data ∨ ':' ∈ v.data) :
    loadProfileValue (writeProfilesToConfig prior P) ("profile " ++ n) k =
      some v :=
  roundtrip_core (loadedConfig prior) (loadedConfig_canonical prior) hprior
    P hP n kv hmem k v hkv

theorem writeProfiles_roundtrip_plain_witness :
    ProfilesWF [("team", [("sso_start_url", "https://ex.awsapps.com/start")])] ∧
    PlainFile (loadedConfig (some "x = 1\n")) ∧
    ("team", [("sso_start_url", "https://ex.awsapps.com/start")]) ∈
      [("team", [("sso_start_url", "https://ex.awsapps.com/start")])] ∧
    lookupA (buildKeys [("sso_start_url", "https://ex.awsapps.com/start")])
      "sso_start_url" = some "https://ex.awsapps.com/start" ∧
    ('/' ∈ ("https://ex.awsapps.com/start" : String).data ∨
      ':' ∈ ("https://ex.awsapps.com/start" : String).data) ∧
    loadProfileValue
        (writeProfilesToConfig (some "x = 1\n")
          [("team", [("sso_start_url", "https://ex.awsapps.com/start")])])
        ("profile " ++ "team") "sso_start_url" =
      some "https://ex.awsapps.com/start" :=
  ⟨by decide, by decide, by decide, by decide, by decide,
    writeProfiles_roundtrip_plain (some "x = 1\n")
      [("team", [("sso_start_url", "https://ex.awsapps.com/start")])]
      (by decide) (by decide)
      "team" [("sso_start_url", "https://ex.awsapps.com/start")]
      (by decide) "sso_start_url" "https://ex.awsapps.com/start"
      (by decide) (by decide)⟩

/-! ## C7: order dependence of the sort on equal keys -/

/-- C7 (counterexample): two directories returning the same two accounts —
equal `(AccountName, RoleName)` sort keys, different AccountIDs — in opposite
orders.  The comparator of generate_profiles.go:484-489 cannot separate the
two entries, so the enumerator returns them in directory order: the outputs
are permutations of each other but differ, refuting order-independence for
every collected list. -/
theorem listAccountRoles_order_dependent_counterexample :
    listAccountRoles tieDirA 9 = Except.ok (some [arTieA, arTieB]) ∧
    listAccountRoles tieDirB 9 = Except.ok (some [arTieB, arTieA]) ∧
    arTieA ≠ arTieB ∧ arKey arTieA = arKey arTieB :=
  ⟨rfl, rfl, by decide, by decide⟩

end AspEks
